import Mathlib

/-!
xmlcutty: a shallow embedding of `cmd/xmlcutty/main.go`.

The program reads command-line flags, then either copies its input to the
standard output (selector `/`) or scans the XML token stream of the input,
keeping the names of the open elements on a stack and writing out the inner
XML of every element whose rendered path is matched by the selector.

Conventions of the embedding.

* Go strings are Lean `String`s; a Go pointer is an `Option` (`none` is nil).
* The standard output is a `String` that only grows; `fmt.Print` appends.
* `encoding/xml` and `regexp` are libraries outside the repository.  The
  decoder is represented by the sequence of results its `Token` method
  returns, each token together with the raw bytes it was read from; a
  compiled regular expression is represented by its `MatchString` function,
  and `regexp.Compile` is a parameter of `main`.
* `xmlcutty.StringStack` is code of the repository whose source file is not
  available; it is modelled from the specification (section 4.1).
-/

namespace Xmlcutty

/-! ## Go runtime: pointers, `strings`, `flag` -/

/-- A Go pointer to a value of type `α`; `none` is the nil pointer. -/
abbrev Ptr (α : Type) := Option α

/-- Dereference of a string pointer (`*p`). -/
def derefString (p : Ptr String) : String := p.getD ""

/-- Dereference of a boolean pointer (`*p`). -/
def derefBool (p : Ptr Bool) : Bool := p.getD false

/-- Go `strings.Split` on character lists, for a one-character separator:
the pieces between the separators, in order; never the empty list. -/
def splitChars (sep : Char) : List Char → List (List Char)
  | [] => [[]]
  | c :: cs =>
    if c = sep then [] :: splitChars sep cs
    else
      match splitChars sep cs with
      | [] => [[c]]
      | p :: ps => (c :: p) :: ps

/-- Go `strings.Split(s, sep)` for a one-character separator `sep`. -/
def stringsSplit (s : String) (sep : Char) : List String :=
  (splitChars sep s.data).map String.mk

/-- Go `strings.HasPrefix(s, prefix)`. -/
def stringsHasPrefix (s pre : String) : Bool := pre.data.isPrefixOf s.data

/-- Replacement of every non-overlapping occurrence, from the left, of the
two-character text backslash-n by one newline character. -/
def replaceEscapedNewline : List Char → List Char
  | [] => []
  | [c] => [c]
  | c :: d :: cs =>
    if c = Char.ofNat 92 ∧ d = Char.ofNat 110 then Char.ofNat 10 :: replaceEscapedNewline cs
    else c :: replaceEscapedNewline (d :: cs)

/-- Go `strings.Replace(s, "\\n", "\n", -1)`, the only use of
`strings.Replace` in the program. -/
def stringsReplaceNewline (s : String) : String := String.mk (replaceEscapedNewline s.data)

/-- Go `strings.Join(a, sep)`. -/
def stringsJoin : List String → String → String
  | [], _ => ""
  | [a], _ => a
  | a :: b :: rest, sep => a ++ sep ++ stringsJoin (b :: rest) sep

/-- Go `flag.String(name, value, usage)` after `flag.Parse()`: a pointer to
a fresh string variable that holds the text given on the command line, or
the default `value` when the flag is absent.  The pointer is never nil. -/
def flagString (given : Option String) (value : String) : Ptr String :=
  some (given.getD value)

/-- Go `flag.Bool(name, value, usage)` after `flag.Parse()`; never nil. -/
def flagBool (given : Option Bool) (value : Bool) : Ptr Bool :=
  some (given.getD value)

/-! ## `regexp` -/

/-- A compiled regular expression (`*regexp.Regexp`), represented by its
source text and its `MatchString` method, which reports whether the string
contains any match of the expression. -/
structure Regexp where
  /-- The source text of the expression. -/
  expr : String
  /-- Go `(*Regexp).MatchString`: unanchored search. -/
  MatchString : String → Bool

/-- Whether the characters `p` occur contiguously somewhere in `s`. -/
def containsChars (p s : List Char) : Bool := s.tails.any (fun t => p.isPrefixOf t)

/-- Go `regexp.Compile` on patterns made of ordinary characters only (no
metacharacter), where a match is an occurrence of the pattern text:
`MatchString` is substring search, and the empty pattern matches every
string.  It agrees with Go on such patterns, the only ones it is used on
below. -/
def compileLiteral (p : String) : Option Regexp :=
  some { expr := p, MatchString := fun s => containsChars p.data s.data }

/-! ## `xmlcutty.StringStack` -/

/-- Modelled from the spec: the type `xmlcutty.StringStack` (called
`StringFifo` in `queue_test.go`), whose source file is missing.  Section 4.1
describes an ordered sequence of segment names, mutated only by push and pop. -/
structure StringStack where
  /-- The segment names, outermost first. -/
  array : List String
  deriving DecidableEq, Repr

namespace StringStack

/-- Modelled from the spec: the empty stack `StringStack{}`. -/
def empty : StringStack := { array := [] }

/-- Modelled from the spec: `Push(name)` appends `name` to the end of the
ordered sequence; no constraint on `name`, no error. -/
def Push (q : StringStack) (s : String) : StringStack := { array := q.array ++ [s] }

/-- Modelled from the spec: `Pop()` removes the last element if present and
returns it (`queue_test.go` compares the returned string with the pushed
one); popping an empty stack is a no-op, for which the empty string, the zero
value, is returned. -/
def Pop (q : StringStack) : String × StringStack :=
  match q.array.getLast? with
  | none => ("", q)
  | some s => (s, { array := q.array.dropLast })

/-- Modelled from the spec: `String()` renders the stack as `/` followed by
the segments joined by `/`; the empty stack renders exactly `/`. -/
def String (q : StringStack) : String := "/" ++ stringsJoin q.array "/"

end StringStack

/-! ## `lastElement` and the output markers -/

/-- The function `lastElement`: the last element of a path like string. -/
def lastElement (p : String) : String :=
  let parts := stringsSplit p '/'
  if parts.length = 0 then ""
  else parts.getLast?.getD ""

/-- The `switch *rename` of `main`: the opener and the closer written
around each captured element, from the rename flag and the value of `*path`. -/
def markers (rename path : String) : String × String :=
  if rename = "" then
    ("<" ++ lastElement path ++ ">", "</" ++ lastElement path ++ ">")
  else if rename = "\\n" then
    ("\n", "")
  else if rename = " " then
    (" ", " ")
  else if stringsHasPrefix rename "\\n" then
    (stringsReplaceNewline rename, "")
  else
    ("<" ++ rename ++ ">", "</" ++ rename ++ ">")

/-! ## `encoding/xml`: the token stream -/

/-- An XML token as the scan loop sees it: the type switch of `main`
distinguishes start elements and end elements, of which only the local name
is read, and ignores every other token (character data, comments,
processing instructions, directives). -/
inductive Token where
  | StartElement (name : String)
  | EndElement (name : String)
  | Other
  deriving DecidableEq, Repr

/-- One result of `decoder.Token()` before the end of the input: a token
together with the raw bytes it was read from, or a decode error. -/
inductive Event where
  | token (t : Token) (raw : String)
  | error (msg : String)
  deriving DecidableEq, Repr

/-- The error a decoder reports when the input ends inside an element. -/
def unexpectedEOF : String := "XML syntax error: unexpected EOF"

/-- Go `decoder.DecodeElement(&d, &e)` for the type `dummy`, whose only
field collects the inner XML: called right after the start element `e` was
read, it consumes the tokens up to and including the end element that closes
`e` and returns the raw bytes of the tokens in between, with what is left of
the stream.  `depth` counts the elements opened inside `e` and still open,
`acc` holds the raw bytes read so far.  A decode error, or the end of the
input before the closing end element, is an error. -/
def DecodeElement : List Event → Nat → String → Except String (String × List Event)
  | [], _, _ => .error unexpectedEOF
  | Event.error msg :: _, _, _ => .error msg
  | Event.token (Token.StartElement _) raw :: rest, depth, acc =>
    DecodeElement rest (depth + 1) (acc ++ raw)
  | Event.token (Token.EndElement _) raw :: rest, depth, acc =>
    match depth with
    | 0 => .ok (acc, rest)
    | d + 1 => DecodeElement rest d (acc ++ raw)
  | Event.token Token.Other raw :: rest, depth, acc =>
    DecodeElement rest depth (acc ++ raw)

/-! ## `main` -/

/-- The command line: for each flag the value given, `none` when the flag
is absent, and whether a file name follows the flags. -/
structure CommandLine where
  path : Option String := none
  regexpath : Option String := none
  root : Option String := none
  rename : Option String := none
  v : Option Bool := none
  count : Option Bool := none
  verbose : Option Bool := none
  deriving DecidableEq, Repr

/-- The input of a run: the error of `os.Open` if the named file cannot be
opened, the bytes of the input, and the results of the successive calls of
`decoder.Token()` on these bytes.  Reading the bytes themselves does not
fail, so `io.Copy` returns no error. -/
structure Source where
  openError : Option String := none
  bytes : String
  events : List Event
  deriving DecidableEq, Repr

/-- How a run ends: normally (status 0), by `log.Fatal` (status 1, the
message goes to the standard error), or by the panic of
`regexp.MustCompile`. -/
inductive Exit where
  | ok
  | fatal (msg : String)
  | panic
  deriving DecidableEq, Repr

/-- What a run leaves behind: the bytes written to the standard output and
the way it ended. -/
structure Outcome where
  stdout : String
  exit : Exit
  deriving DecidableEq, Repr

/-- The variables of `main` that the scan loop reads and never writes. -/
structure Settings where
  repath : Ptr Regexp
  path : Ptr String
  regexpath : Ptr String
  count : Ptr Bool
  verbose : Ptr Bool
  opener : String
  closer : String

/-- The variables the scan loop updates: the stack, the counter and the
standard output. -/
structure LoopState where
  stack : StringStack
  counter : Nat
  stdout : String
  deriving DecidableEq, Repr

/-- The selector setup of `main` (lines 70 to 74): `repath` and the new
value of the variable `path`, or `none` when `regexp.MustCompile` panics. -/
def selectorSetup (compile : String → Option Regexp) (path regexpath : Ptr String) :
    Option (Ptr Regexp × Ptr String) :=
  if regexpath.isSome then
    match compile (derefString regexpath) with
    | none => none
    | some re => some (some re, regexpath)
  else
    some (none, path)

/-- The block under the comment `Matching`: whether the rendered path `s`
of the start element just pushed is matched. -/
def matched (repath : Ptr Regexp) (path : Ptr String) (s : String) : Bool :=
  match repath with
  | some re => re.MatchString s
  | none => decide (derefString path = s)

/-- The line `fmt.Printf` writes for a match when verbose is on. -/
def verboseReport (c : Settings) (s : String) : String :=
  if c.repath.isSome then
    "Matched " ++ s ++ " against regular expression " ++ derefString c.regexpath ++ "\n"
  else
    "Matched " ++ s ++ " against string " ++ derefString c.path ++ "\n"

/-- The `for` loop of `main`.  Each iteration asks the decoder for a token:
the end of the input leaves the loop, a decode error is fatal, and a start
element is pushed, matched and, when matched, decoded as a whole.  The first
argument bounds the number of iterations; `none` means the bound was too
small.  The result is the final state and the message of `log.Fatal`, if
the loop ended that way. -/
def scanLoop (c : Settings) : Nat → List Event → LoopState → Option (LoopState × Option String)
  | 0, _, _ => none
  | _ + 1, [], st => some (st, none)
  | _ + 1, Event.error msg :: _, st => some (st, some msg)
  | fuel + 1, Event.token (Token.StartElement name) _ :: rest, st =>
    let stack := st.stack.Push name
    if matched c.repath c.path stack.String then
      let out := if derefBool c.verbose then st.stdout ++ verboseReport c stack.String else st.stdout
      match DecodeElement rest 0 "" with
      | .error msg => some ({ st with stack := stack, stdout := out }, some msg)
      | .ok (text, rest1) =>
        let stack1 := stack.Pop.2
        if c.count.isSome && derefBool c.count then
          scanLoop c fuel rest1 { stack := stack1, counter := st.counter + 1, stdout := out }
        else
          scanLoop c fuel rest1
            { stack := stack1, counter := st.counter, stdout := out ++ c.opener ++ text ++ c.closer }
    else
      scanLoop c fuel rest { st with stack := stack }
  | fuel + 1, Event.token (Token.EndElement _) _ :: rest, st =>
    scanLoop c fuel rest { st with stack := st.stack.Pop.2 }
  | fuel + 1, Event.token Token.Other _ :: rest, st =>
    scanLoop c fuel rest st

/-- Version of xmlcutty. -/
def Version : String := "0.1.6 s0.0.1"

/-- The function `main`: the outcome of a run on a command line and an
input, given the regular-expression compiler.  `none` only if the iteration
bound given to the scan loop were too small. -/
def main (compile : String → Option Regexp) (cl : CommandLine) (src : Source) :
    Option Outcome :=
  let path := flagString cl.path "/"
  let regexpath := flagString cl.regexpath ""
  let root := flagString cl.root ""
  let rename := flagString cl.rename ""
  let version := flagBool cl.v false
  let count := flagBool cl.count false
  let verbose := flagBool cl.verbose false
  match selectorSetup compile path regexpath with
  | none => some { stdout := "", exit := Exit.panic }
  | some (repath, path) =>
    if derefBool version then
      some { stdout := Version ++ "\n", exit := Exit.ok }
    else
      match src.openError with
      | some msg => some { stdout := "", exit := Exit.fatal msg }
      | none =>
        if derefString path = "/" then
          let out0 := if derefString root ≠ "" then "<" ++ derefString root ++ ">" ++ "\n" else ""
          let out1 := out0 ++ src.bytes
          let out2 := if derefString root ≠ "" then out1 ++ "</" ++ derefString root ++ ">" ++ "\n" else out1
          some { stdout := out2, exit := Exit.ok }
        else
          let mk := markers (derefString rename) (derefString path)
          let c : Settings :=
            { repath := repath, path := path, regexpath := regexpath, count := count,
              verbose := verbose, opener := mk.1, closer := mk.2 }
          let out0 := if derefString root ≠ "" then "<" ++ derefString root ++ ">" ++ "\n" else ""
          match scanLoop c (src.events.length + 1) src.events
              { stack := StringStack.empty, counter := 0, stdout := out0 } with
          | none => none
          | some (st, some msg) => some { stdout := st.stdout, exit := Exit.fatal msg }
          | some (st, none) =>
            let out1 := if derefString root ≠ "" then st.stdout ++ "</" ++ derefString root ++ ">" ++ "\n" else st.stdout
            let out2 :=
              if count.isSome && derefBool count then
                (if derefBool verbose then out1 ++ "Count: " else out1) ++ toString st.counter
              else out1
            some { stdout := out2, exit := Exit.ok }

/-- The token stream of the document `<a><b>x</b><b>y</b></a>`. -/
def sampleEvents : List Event :=
  [ Event.token (Token.StartElement "a") "<a>",
    Event.token (Token.StartElement "b") "<b>",
    Event.token Token.Other "x",
    Event.token (Token.EndElement "b") "</b>",
    Event.token (Token.StartElement "b") "<b>",
    Event.token Token.Other "y",
    Event.token (Token.EndElement "b") "</b>",
    Event.token (Token.EndElement "a") "</a>" ]

/-- The input `<a><b>x</b><b>y</b></a>`. -/
def sampleSource : Source :=
  { bytes := "<a><b>x</b><b>y</b></a>", events := sampleEvents }

/-! ## Match events: the scan as the specification describes it -/

/-- A match event (spec, section 3): the position in the token stream of the
matched start element, its rendered path, and the raw inner content captured
for it. -/
structure MatchEvent where
  pos : Nat
  path : String
  content : String
  deriving DecidableEq, Repr

/-- The match events of a scan, after the transitions of section 4.3 of the
spec: a start element is pushed and its rendered path given to the matcher
`m`; on a match the inner content is captured, the name popped and one event
produced; an end element pops; the scan ends at the end of the stream or at
a decode error.  `pos` is the position of the head of the stream, the first
argument bounds the number of steps. -/
def matchEvents (m : String → Bool) : Nat → List Event → Nat → StringStack → List MatchEvent
  | 0, _, _, _ => []
  | _ + 1, [], _, _ => []
  | _ + 1, Event.error _ :: _, _, _ => []
  | fuel + 1, Event.token (Token.StartElement name) _ :: rest, pos, q =>
    if m (q.Push name).String then
      match DecodeElement rest 0 "" with
      | .error _ => []
      | .ok (text, rest1) =>
        { pos := pos, path := (q.Push name).String, content := text } ::
          matchEvents m fuel rest1 (pos + 1 + (rest.length - rest1.length)) (q.Push name).Pop.2
    else
      matchEvents m fuel rest (pos + 1) (q.Push name)
  | fuel + 1, Event.token (Token.EndElement _) _ :: rest, pos, q =>
    matchEvents m fuel rest (pos + 1) q.Pop.2
  | fuel + 1, Event.token Token.Other _ :: rest, pos, q =>
    matchEvents m fuel rest (pos + 1) q

/-- The match events of the scan of a whole token stream, from the empty
stack. -/
def matchEventsOf (m : String → Bool) (evs : List Event) : List MatchEvent :=
  matchEvents m (evs.length + 1) evs 0 StringStack.empty

/-- The concatenation of a list of strings, in order. -/
def concatAll : List String → String
  | [] => ""
  | a :: l => a ++ concatAll l

/-- What the formatter writes for one match event (spec, section 4.4):
opener, captured content, closer. -/
def emission (opener closer : String) (e : MatchEvent) : String :=
  opener ++ e.content ++ closer

/-- The condition `count != nil && *count` of `main`. -/
def countOn (c : Settings) : Bool := c.count.isSome && derefBool c.count

/-- The raw bytes of a run of events, in order. -/
def rawOf : List Event → String
  | [] => ""
  | Event.token _ raw :: rest => raw ++ rawOf rest
  | Event.error _ :: rest => rawOf rest

/-- The rendered paths at the successive start elements of a token stream
when the stack merely follows the start and end elements from the stack `q`. -/
def startPaths : StringStack → List Event → List String
  | _, [] => []
  | _, Event.error _ :: _ => []
  | q, Event.token (Token.StartElement name) _ :: rest =>
    (q.Push name).String :: startPaths (q.Push name) rest
  | q, Event.token (Token.EndElement _) _ :: rest => startPaths q.Pop.2 rest
  | q, Event.token Token.Other _ :: rest => startPaths q rest

/-- The events of a stream of tokens that is read to the end of the input
without decode error. -/
def tokenEvents (toks : List (Token × String)) : List Event :=
  toks.map (fun t => Event.token t.1 t.2)

/-- An operation on a stack: push of a name, or pop. -/
inductive StackOp where
  | push (s : String)
  | pop
  deriving DecidableEq, Repr

/-- The stack after a sequence of pushes and pops, applied in order. -/
def applyOps : StringStack → List StackOp → StringStack
  | q, [] => q
  | q, StackOp.push s :: ops => applyOps (q.Push s) ops
  | q, StackOp.pop :: ops => applyOps q.Pop.2 ops

/-- The stack after the names `ss` were pushed in order. -/
def pushAll (q : StringStack) (ss : List String) : StringStack :=
  ss.foldl StringStack.Push q

/-- The settings the scan loop of `main` runs with, for a command line
whose regexpath text compiled to `re`. -/
def settingsOf (re : Regexp) (cl : CommandLine) : Settings :=
  { repath := some re
    path := some (cl.regexpath.getD "")
    regexpath := some (cl.regexpath.getD "")
    count := some (cl.count.getD false)
    verbose := some (cl.verbose.getD false)
    opener := (markers (cl.rename.getD "") (cl.regexpath.getD "")).1
    closer := (markers (cl.rename.getD "") (cl.regexpath.getD "")).2 }

/-- The line `fmt.Println("<" + *root + ">")` writes, nothing when root is
empty. -/
def rootOpener (root : String) : String :=
  if root ≠ "" then "<" ++ root ++ ">" ++ "\n" else ""

/-- The line `fmt.Println("</" + *root + ">")` writes, nothing when root is
empty. -/
def rootCloser (root : String) : String :=
  if root ≠ "" then "</" ++ root ++ ">" ++ "\n" else ""

/-- The match event `e` sits in the stream `evs`, whose head has position
`pos`: at the position of `e` there is a start element, and the content of
`e` is the raw bytes of a run of events that follows this start element. -/
def EventAt (evs : List Event) (pos : Nat) (e : MatchEvent) : Prop :=
  ∃ (i k : Nat) (name raw : String), e.pos = pos + i ∧
    evs[i]? = some (Event.token (Token.StartElement name) raw) ∧
    e.content = rawOf ((evs.drop (i + 1)).take k)

/-- The result of `n` successive calls of `Pop()`: the strings returned,
in the order of the calls, and the stack that is left. -/
def popN : Nat → StringStack → List String × StringStack
  | 0, q => ([], q)
  | n + 1, q => (q.Pop.1 :: (popN n q.Pop.2).1, (popN n q.Pop.2).2)

/-- The tokens of the input `<a><b>x</b><`, which a decode error follows. -/
def brokenTokens : List (Token × String) :=
  [ (Token.StartElement "a", "<a>"), (Token.StartElement "b", "<b>"),
    (Token.Other, "x"), (Token.EndElement "b", "</b>") ]

/-- What the scan loop writes for one match event: the report line when
verbose is on, then, when count is off, the emission. -/
def matchOutput (c : Settings) (e : MatchEvent) : String :=
  (if derefBool c.verbose then verboseReport c e.path else "") ++
    (if countOn c then "" else emission c.opener c.closer e)

/-- The start elements on which the scan evaluates the matcher, each with
its position in the stream and its rendered path: those that the `for` loop
itself obtains from `decoder.Token()`.  The tokens that `DecodeElement`
reads during a capture are skipped. -/
def matcherCalls (m : String → Bool) : Nat → List Event → Nat → StringStack → List (Nat × String)
  | 0, _, _, _ => []
  | _ + 1, [], _, _ => []
  | _ + 1, Event.error _ :: _, _, _ => []
  | fuel + 1, Event.token (Token.StartElement name) _ :: rest, pos, q =>
    if m (q.Push name).String then
      match DecodeElement rest 0 "" with
      | .error _ => [(pos, (q.Push name).String)]
      | .ok (_, rest1) =>
        (pos, (q.Push name).String) ::
          matcherCalls m fuel rest1 (pos + 1 + (rest.length - rest1.length)) (q.Push name).Pop.2
    else
      (pos, (q.Push name).String) :: matcherCalls m fuel rest (pos + 1) (q.Push name)
  | fuel + 1, Event.token (Token.EndElement _) _ :: rest, pos, q =>
    matcherCalls m fuel rest (pos + 1) q.Pop.2
  | fuel + 1, Event.token Token.Other _ :: rest, pos, q =>
    matcherCalls m fuel rest (pos + 1) q

/-- The matcher calls of the scan of a whole token stream. -/
def matcherCallsOf (m : String → Bool) (evs : List Event) : List (Nat × String) :=
  matcherCalls m (evs.length + 1) evs 0 StringStack.empty

/-- The match event `e` captures, in the stream `evs` whose head has
position `pos`, the element that ends at position `last`: the decoder,
started right after the start element of `e`, returns the content of `e` and
stops after the end element at `last`. -/
def Captures (evs : List Event) (pos : Nat) (e : MatchEvent) (last : Nat) : Prop :=
  ∃ i k : Nat, e.pos = pos + i ∧ last = pos + i + k + 1 ∧
    DecodeElement (evs.drop (i + 1)) 0 "" = .ok (e.content, evs.drop (i + k + 2)) ∧
    ∃ name raw, evs[i + k + 1]? = some (Event.token (Token.EndElement name) raw)

/-- The outcome of one iteration of the `for` loop: the loop is left, in a
state and possibly with the message of `log.Fatal`, or it goes on with what
is left of the stream, in a new state. -/
inductive Step where
  | done (st : LoopState) (fatal : Option String)
  | next (rest : List Event) (st : LoopState)

/-- One iteration of the `for` loop of `main`: the body of `scanLoop`. -/
def loopStep (c : Settings) : List Event → LoopState → Step
  | [], st => Step.done st none
  | Event.error msg :: _, st => Step.done st (some msg)
  | Event.token (Token.StartElement name) _ :: rest, st =>
    let stack := st.stack.Push name
    if matched c.repath c.path stack.String then
      let out := if derefBool c.verbose then st.stdout ++ verboseReport c stack.String else st.stdout
      match DecodeElement rest 0 "" with
      | .error msg => Step.done { st with stack := stack, stdout := out } (some msg)
      | .ok (text, rest1) =>
        let stack1 := stack.Pop.2
        if c.count.isSome && derefBool c.count then
          Step.next rest1 { stack := stack1, counter := st.counter + 1, stdout := out }
        else
          Step.next rest1
            { stack := stack1, counter := st.counter, stdout := out ++ c.opener ++ text ++ c.closer }
    else
      Step.next rest { st with stack := stack }
  | Event.token (Token.EndElement _) _ :: rest, st =>
    Step.next rest { st with stack := st.stack.Pop.2 }
  | Event.token Token.Other _ :: rest, st => Step.next rest st

/-- The stream that is left and the state after `n` iterations of the loop;
`none` if the loop is left earlier. -/
def iterations (c : Settings) : Nat → List Event → LoopState → Option (List Event × LoopState)
  | 0, evs, st => some (evs, st)
  | n + 1, evs, st =>
    match loopStep c evs st with
    | Step.done _ _ => none
    | Step.next rest st1 => iterations c n rest st1

/-- The names of the elements that are open after the events `evs`, when
those of `names` were open before, outermost first: a start element opens
an element, an end element closes the innermost open one. -/
def openAfter : List String → List Event → List String
  | names, [] => names
  | names, Event.token (Token.StartElement name) _ :: rest => openAfter (names ++ [name]) rest
  | names, Event.token (Token.EndElement _) _ :: rest => openAfter names.dropLast rest
  | names, Event.token Token.Other _ :: rest => openAfter names rest
  | names, Event.error _ :: rest => openAfter names rest

/-- The nesting depth after the events `evs`, from the depth `d`. -/
def nestingDepth : Nat → List Event → Nat
  | d, [] => d
  | d, Event.token (Token.StartElement _) _ :: rest => nestingDepth (d + 1) rest
  | d, Event.token (Token.EndElement _) _ :: rest => nestingDepth (d - 1) rest
  | d, Event.token Token.Other _ :: rest => nestingDepth d rest
  | d, Event.error _ :: rest => nestingDepth d rest

/-- A well-formed (balanced) token stream, read at depth `d`: no decode
error, every end element closes an open element, and no element is left
open at the end. -/
def balanced : Nat → List Event → Bool
  | d, [] => d == 0
  | _, Event.error _ :: _ => false
  | d, Event.token (Token.StartElement _) _ :: rest => balanced (d + 1) rest
  | 0, Event.token (Token.EndElement _) _ :: _ => false
  | d + 1, Event.token (Token.EndElement _) _ :: rest => balanced d rest
  | d, Event.token Token.Other _ :: rest => balanced d rest

/-! ## `encoding/xml`: nesting of the tokens that `Token` returns -/

/-- The error of `decoder.Token()` for an end tag that closes no open
element (the line number that Go puts into the message is left out). -/
def unexpectedEnd (name : String) : String :=
  "XML syntax error: unexpected end element </" ++ name ++ ">"

/-- Go `(*Decoder).popElement` as `Token()` applies it, with `Strict =
false`, to the end tag `</name>` read from the bytes `raw`, where `stk` holds
the names of the open elements, innermost first.  With no open element the
result is the syntax error `unexpected end element`; an open element of that
name is closed; an open element of another name is closed under its own
name, and the end tag is then applied to the elements that remain open.  The
result is the events returned and the elements left open, `none` after an
error. -/
def closeTo (name raw : String) : List String → List Event × Option (List String)
  | [] => ([Event.error (unexpectedEnd name)], none)
  | s :: stk =>
    if s = name then ([Event.token (Token.EndElement name) raw], some stk)
    else
      (Event.token (Token.EndElement s) raw :: (closeTo name "" stk).1, (closeTo name "" stk).2)

/-- The results of the successive calls of `decoder.Token()`, with `Strict
= false` and no `AutoClose` list, on an input that consists of the tags and
other markup `toks`, each with its raw bytes, while the elements `stk`
(innermost first) are open: `Token` guarantees that the start and end
elements it returns are properly nested, and returns a syntax error for an
unexpected end element and for the end of the input inside an open element. -/
def tokenResults : List String → List (Token × String) → List Event
  | [], [] => []
  | _ :: _, [] => [Event.error unexpectedEOF]
  | stk, (Token.StartElement name, raw) :: rest =>
    Event.token (Token.StartElement name) raw :: tokenResults (name :: stk) rest
  | stk, (Token.EndElement name, raw) :: rest =>
    match closeTo name raw stk with
    | (evs, some stk1) => evs ++ tokenResults stk1 rest
    | (evs, none) => evs
  | stk, (Token.Other, raw) :: rest => Event.token Token.Other raw :: tokenResults stk rest

/-- A run of tags in which every end tag closes the innermost open element,
under its name, and which leaves none of the elements `stk` and none of its
own open. -/
def wellFormed : List String → List (Token × String) → Bool
  | stk, [] => stk.isEmpty
  | stk, (Token.StartElement name, _) :: rest => wellFormed (name :: stk) rest
  | [], (Token.EndElement _, _) :: _ => false
  | s :: stk, (Token.EndElement name, _) :: rest => decide (s = name) && wellFormed stk rest
  | stk, (Token.Other, _) :: rest => wellFormed stk rest

/-- The tags and text of the document `<a><b>x</b><b>y</b></a>`. -/
def sampleTokens : List (Token × String) :=
  [ (Token.StartElement "a", "<a>"), (Token.StartElement "b", "<b>"),
    (Token.Other, "x"), (Token.EndElement "b", "</b>"),
    (Token.StartElement "b", "<b>"), (Token.Other, "y"),
    (Token.EndElement "b", "</b>"), (Token.EndElement "a", "</a>") ]

/-! ## Facts about the string helpers -/

theorem splitChars_of_not_mem (sep : Char) (l : List Char) (h : sep ∉ l) :
    splitChars sep l = [l] := by
  induction l with
  | nil => rfl
  | cons c cs ih =>
    have hc : ¬ c = sep := fun e => h (by simp [e])
    have hcs : sep ∉ cs := fun e => h (List.mem_cons_of_mem _ e)
    simp [splitChars, hc, ih hcs]

theorem splitChars_append_sep (sep : Char) (pre suf : List Char) :
    ∃ front, front ≠ [] ∧
      splitChars sep (pre ++ sep :: suf) = front ++ splitChars sep suf := by
  induction pre with
  | nil => exact ⟨[[]], by simp, by simp [splitChars]⟩
  | cons c pre ih =>
    obtain ⟨front, hne, hfront⟩ := ih
    by_cases hc : c = sep
    · exact ⟨[] :: front, by simp, by simp [splitChars, hc, hfront]⟩
    · cases front with
      | nil => exact absurd rfl hne
      | cons p ps =>
        exact ⟨(c :: p) :: ps, by simp, by simp [splitChars, hc, hfront]⟩

theorem lastElement_after_last_slash (pre suf : String) (h : '/' ∉ suf.data) :
    lastElement (pre ++ "/" ++ suf) = suf := by
  obtain ⟨front, _, hfront⟩ := splitChars_append_sep '/' pre.data suf.data
  have hdata : (pre ++ "/" ++ suf).data = pre.data ++ '/' :: suf.data := by
    simp [String.data_append]
  simp [lastElement, stringsSplit, hdata, hfront, splitChars_of_not_mem '/' suf.data h]

theorem lastElement_no_slash (p : String) (h : '/' ∉ p.data) : lastElement p = p := by
  simp [lastElement, stringsSplit, splitChars_of_not_mem '/' p.data h]

theorem containsChars_iff (p s : List Char) :
    containsChars p s = true ↔ ∃ pre post, s = pre ++ p ++ post := by
  simp only [containsChars, List.any_eq_true, List.mem_tails, List.isPrefixOf_iff_prefix]
  constructor
  · rintro ⟨t, ⟨pre, rfl⟩, ⟨post, rfl⟩⟩
    exact ⟨pre, post, by simp⟩
  · rintro ⟨pre, post, rfl⟩
    exact ⟨p ++ post, ⟨pre, by simp⟩, ⟨post, rfl⟩⟩

theorem containsChars_string_iff (p s : String) :
    containsChars p.data s.data = true ↔ ∃ pre post : String, s = pre ++ p ++ post := by
  rw [containsChars_iff]
  constructor
  · rintro ⟨pre, post, h⟩
    exact ⟨String.mk pre, String.mk post, String.ext (by simp [String.data_append, h])⟩
  · rintro ⟨pre, post, rfl⟩
    exact ⟨pre.data, post.data, by simp [String.data_append]⟩

/-- For every way the two string flags are given, the selector setup
compiles the text of `regexpath` (empty when the flag is absent) and makes
`path` point to it: the pointer `regexpath` is never nil. -/
theorem selectorSetup_flags (compile : String → Option Regexp) (p r : Option String) :
    selectorSetup compile (flagString p "/") (flagString r "") =
      (compile (r.getD "")).map (fun re => (some re, some (r.getD ""))) := by
  simp only [selectorSetup, flagString, Option.isSome_some, if_true, derefString,
    Option.getD_some]
  cases compile (r.getD "") <;> rfl

theorem replaceEscapedNewline_of_not_mem :
    ∀ l : List Char, Char.ofNat 92 ∉ l → replaceEscapedNewline l = l
  | [], _ => rfl
  | [_], _ => rfl
  | c :: d :: cs, h => by
    have hc : ¬ c = Char.ofNat 92 := fun e => h (by simp [e])
    have ih := replaceEscapedNewline_of_not_mem (d :: cs)
      (fun e => h (List.mem_cons_of_mem _ e))
    simp [replaceEscapedNewline, hc, ih]

/-! ## Facts about the decoder and the scan loop -/

theorem DecodeElement_drop : ∀ (evs : List Event) (depth : Nat) (acc text : String)
    (rest : List Event), DecodeElement evs depth acc = .ok (text, rest) →
    ∃ k, k < evs.length ∧ rest = evs.drop (k + 1) ∧ text = acc ++ rawOf (evs.take k)
  | [], _, _, _, _, h => by simp [DecodeElement] at h
  | Event.error _ :: _, _, _, _, _, h => by simp [DecodeElement] at h
  | Event.token (Token.StartElement _) raw :: evs, depth, acc, text, rest, h => by
    simp only [DecodeElement] at h
    obtain ⟨k, hk, hrest, htext⟩ := DecodeElement_drop evs _ _ _ _ h
    exact ⟨k + 1, by simpa using hk, by simpa using hrest,
      by simp [rawOf, htext, String.append_assoc]⟩
  | Event.token (Token.EndElement _) raw :: evs, 0, acc, text, rest, h => by
    simp only [DecodeElement, Except.ok.injEq, Prod.mk.injEq] at h
    exact ⟨0, by simp, by simp [h.2], by simp [rawOf, h.1]⟩
  | Event.token (Token.EndElement _) raw :: evs, d + 1, acc, text, rest, h => by
    simp only [DecodeElement] at h
    obtain ⟨k, hk, hrest, htext⟩ := DecodeElement_drop evs _ _ _ _ h
    exact ⟨k + 1, by simpa using hk, by simpa using hrest,
      by simp [rawOf, htext, String.append_assoc]⟩
  | Event.token Token.Other raw :: evs, depth, acc, text, rest, h => by
    simp only [DecodeElement] at h
    obtain ⟨k, hk, hrest, htext⟩ := DecodeElement_drop evs _ _ _ _ h
    exact ⟨k + 1, by simpa using hk, by simpa using hrest,
      by simp [rawOf, htext, String.append_assoc]⟩

theorem DecodeElement_length (evs : List Event) (depth : Nat) (acc text : String)
    (rest : List Event) (h : DecodeElement evs depth acc = .ok (text, rest)) :
    rest.length < evs.length := by
  obtain ⟨k, hk, hrest, _⟩ := DecodeElement_drop evs depth acc text rest h
  subst hrest
  simp only [List.length_drop]
  omega

/-- The scan loop ends within as many iterations as there are events, plus
one: with that bound it always has a result. -/
theorem scanLoop_total (c : Settings) : ∀ (fuel : Nat) (evs : List Event) (st : LoopState),
    evs.length < fuel → ∃ r, scanLoop c fuel evs st = some r
  | 0, _, _, h => by omega
  | _ + 1, [], st, _ => ⟨_, rfl⟩
  | _ + 1, Event.error _ :: _, st, _ => ⟨_, rfl⟩
  | fuel + 1, Event.token (Token.StartElement name) _ :: rest, st, h => by
    have hlen : rest.length < fuel := by simpa using h
    simp only [scanLoop]
    split
    · cases hd : DecodeElement rest 0 "" with
      | error msg => exact ⟨_, rfl⟩
      | ok pr =>
        obtain ⟨text, rest1⟩ := pr
        have h1 := DecodeElement_length rest 0 "" text rest1 hd
        simp only []
        split <;> exact scanLoop_total c fuel rest1 _ (by omega)
    · exact scanLoop_total c fuel rest _ hlen
  | fuel + 1, Event.token (Token.EndElement _) _ :: rest, st, h => by
    simp only [scanLoop]
    exact scanLoop_total c fuel rest _ (by simpa using h)
  | fuel + 1, Event.token Token.Other _ :: rest, st, h => by
    simp only [scanLoop]
    exact scanLoop_total c fuel rest _ (by simpa using h)

/-- With verbose off, the scan loop writes the emissions of the match
events of the scan, in order, when count is off, and nothing when count is
on; the counter grows by the number of match events when count is on. -/
theorem scanLoop_quiet (c : Settings) (hv : derefBool c.verbose = false) :
    ∀ (fuel : Nat) (evs : List Event) (st : LoopState) (pos : Nat)
      (r : LoopState × Option String), scanLoop c fuel evs st = some r →
      r.1.stdout = st.stdout ++
        (if countOn c then ""
         else concatAll ((matchEvents (matched c.repath c.path) fuel evs pos st.stack).map
           (emission c.opener c.closer))) ∧
      r.1.counter = st.counter +
        (if countOn c then
          (matchEvents (matched c.repath c.path) fuel evs pos st.stack).length
         else 0)
  | 0, _, _, _, _, h => by simp [scanLoop] at h
  | _ + 1, [], st, _, r, h => by
    simp only [scanLoop, Option.some.injEq] at h
    subst h
    simp [matchEvents, concatAll]
  | _ + 1, Event.error _ :: _, st, _, r, h => by
    simp only [scanLoop, Option.some.injEq] at h
    subst h
    simp [matchEvents, concatAll]
  | fuel + 1, Event.token (Token.StartElement name) _ :: rest, st, pos, r, h => by
    simp only [scanLoop, hv] at h
    simp only [matchEvents]
    by_cases hm : matched c.repath c.path (st.stack.Push name).String = true
    · simp only [hm, if_true] at h ⊢
      cases hd : DecodeElement rest 0 "" with
      | error msg =>
        simp only [hd, Option.some.injEq] at h
        subst h
        simp [concatAll]
      | ok pr =>
        obtain ⟨text, rest1⟩ := pr
        simp only [hd] at h
        by_cases hc : countOn c = true
        · have hc1 : (c.count.isSome && derefBool c.count) = true := hc
          simp only [hc1, if_true] at h
          have ih := scanLoop_quiet c hv fuel rest1 _
            (pos + 1 + (rest.length - rest1.length)) r h
          simp only [hc, if_true] at ih ⊢
          refine ⟨by simpa using ih.1, ?_⟩
          rw [ih.2]
          simp only [List.length_cons]
          omega
        · have hc1 : ¬ (c.count.isSome && derefBool c.count) = true := hc
          simp only [hc1, if_false] at h
          have ih := scanLoop_quiet c hv fuel rest1 _
            (pos + 1 + (rest.length - rest1.length)) r h
          simp only [hc, if_false] at ih ⊢
          refine ⟨?_, by simpa using ih.2⟩
          rw [ih.1]
          simp [concatAll, emission, String.append_assoc]
    · simp only [hm, if_false] at h ⊢
      exact scanLoop_quiet c hv fuel rest _ (pos + 1) r h
  | fuel + 1, Event.token (Token.EndElement _) _ :: rest, st, pos, r, h => by
    simp only [scanLoop] at h
    simp only [matchEvents]
    exact scanLoop_quiet c hv fuel rest _ (pos + 1) r h
  | fuel + 1, Event.token Token.Other _ :: rest, st, pos, r, h => by
    simp only [scanLoop] at h
    simp only [matchEvents]
    exact scanLoop_quiet c hv fuel rest _ (pos + 1) r h

/-- The function `main` on the tokenizing path: when the regexpath text
compiles, the version flag is off, the input opens and the selector text is
not `/`, the run is the scan loop between the root lines, followed by the
count when count is on. -/
theorem main_scan (compile : String → Option Regexp) (cl : CommandLine) (src : Source)
    (re : Regexp) (hre : compile (cl.regexpath.getD "") = some re)
    (hv : cl.v.getD false = false) (hopen : src.openError = none)
    (hsel : cl.regexpath.getD "" ≠ "/") :
    main compile cl src =
      match scanLoop (settingsOf re cl) (src.events.length + 1) src.events
          { stack := StringStack.empty, counter := 0,
            stdout := rootOpener (cl.root.getD "") } with
      | none => none
      | some (st, some msg) => some { stdout := st.stdout, exit := Exit.fatal msg }
      | some (st, none) =>
        some
          { stdout :=
              if cl.count.getD false then
                (if cl.verbose.getD false then
                  st.stdout ++ rootCloser (cl.root.getD "") ++ "Count: "
                 else st.stdout ++ rootCloser (cl.root.getD "")) ++ toString st.counter
              else st.stdout ++ rootCloser (cl.root.getD "")
            exit := Exit.ok } := by
  simp only [main, selectorSetup_flags, hre, Option.map_some']
  simp only [flagBool, flagString,
    derefBool, derefString, Option.getD_some, hv, hopen, hsel, if_false, Option.isSome_some,
    Bool.true_and, Bool.false_eq_true, settingsOf, rootOpener, rootCloser]
  cases hs : scanLoop _ (src.events.length + 1) src.events _ with
  | none => rfl
  | some r =>
    obtain ⟨st, e⟩ := r
    cases e with
    | some msg => rfl
    | none =>
      by_cases hr : cl.root.getD "" = "" <;> simp [hr, String.append_assoc]

theorem EventAt_drop (evs : List Event) (n pos : Nat) (e : MatchEvent)
    (h : EventAt (evs.drop n) (pos + n) e) : EventAt evs pos e := by
  obtain ⟨i, k, name, raw, hpos, hget, hcontent⟩ := h
  refine ⟨n + i, k, name, raw, by omega, ?_, ?_⟩
  · rw [← hget, List.getElem?_drop]
  · rw [hcontent, List.drop_drop]
    congr 2

/-- Every match event of a scan sits at a start element of the stream whose
rendered path the matcher accepts, its content is the raw bytes that follow
this start element up to its end element, and the events are listed by
strictly increasing position. -/
theorem matchEvents_positions (m : String → Bool) :
    ∀ (fuel : Nat) (evs : List Event) (pos : Nat) (q : StringStack),
      (∀ e ∈ matchEvents m fuel evs pos q, EventAt evs pos e ∧ m e.path = true) ∧
      (matchEvents m fuel evs pos q).Pairwise (fun a b => a.pos < b.pos)
  | 0, _, _, _ => by simp [matchEvents]
  | _ + 1, [], _, _ => by simp [matchEvents]
  | _ + 1, Event.error _ :: _, _, _ => by simp [matchEvents]
  | fuel + 1, Event.token (Token.StartElement name) raw :: rest, pos, q => by
    simp only [matchEvents]
    by_cases hm : m (q.Push name).String = true
    · simp only [hm, if_true]
      cases hd : DecodeElement rest 0 "" with
      | error msg => simp
      | ok pr =>
        obtain ⟨text, rest1⟩ := pr
        obtain ⟨k, hk, hrest, htext⟩ := DecodeElement_drop rest 0 "" text rest1 hd
        have hlen : pos + 1 + (rest.length - rest1.length) = pos + (k + 2) := by
          rw [hrest, List.length_drop]
          omega
        have ih := matchEvents_positions m fuel rest1 (pos + (k + 2)) (q.Push name).Pop.2
        simp only [hlen]
        have htail : ∀ e ∈ matchEvents m fuel rest1 (pos + (k + 2)) (q.Push name).Pop.2,
            EventAt (Event.token (Token.StartElement name) raw :: rest) pos e := by
          intro e he
          apply EventAt_drop _ (k + 2)
          have h2 : (Event.token (Token.StartElement name) raw :: rest).drop (k + 2) = rest1 := by
            rw [hrest]
            rfl
          rw [h2]
          exact (ih.1 e he).1
        refine ⟨?_, ?_⟩
        · intro e he
          rcases List.mem_cons.mp he with rfl | he
          · exact ⟨⟨0, k, name, raw, rfl, by simp, by simp [htext]⟩, hm⟩
          · exact ⟨htail e he, (ih.1 e he).2⟩
        · refine List.pairwise_cons.mpr ⟨?_, ih.2⟩
          intro e he
          obtain ⟨i, _, _, _, hpos, _, _⟩ := (ih.1 e he).1
          show pos < e.pos
          omega
    · simp only [hm, if_false]
      have ih := matchEvents_positions m fuel rest (pos + 1) (q.Push name)
      refine ⟨fun e he => ⟨?_, (ih.1 e he).2⟩, ih.2⟩
      exact EventAt_drop _ 1 pos e (by simpa using (ih.1 e he).1)
  | fuel + 1, Event.token (Token.EndElement _) raw :: rest, pos, q => by
    simp only [matchEvents]
    have ih := matchEvents_positions m fuel rest (pos + 1) q.Pop.2
    refine ⟨fun e he => ⟨?_, (ih.1 e he).2⟩, ih.2⟩
    exact EventAt_drop _ 1 pos e (by simpa using (ih.1 e he).1)
  | fuel + 1, Event.token Token.Other raw :: rest, pos, q => by
    simp only [matchEvents]
    have ih := matchEvents_positions m fuel rest (pos + 1) q
    refine ⟨fun e he => ⟨?_, (ih.1 e he).2⟩, ih.2⟩
    exact EventAt_drop _ 1 pos e (by simpa using (ih.1 e he).1)

/-- A scan of a stream of tokens in which no start element is matched
reaches the end of the stream and writes nothing. -/
theorem scanLoop_no_match (c : Settings) :
    ∀ (toks : List (Token × String)) (fuel : Nat) (st : LoopState),
      toks.length < fuel →
      (∀ s ∈ startPaths st.stack (tokenEvents toks), matched c.repath c.path s = false) →
      ∃ st1, scanLoop c fuel (tokenEvents toks) st = some (st1, none) ∧
        st1.stdout = st.stdout ∧ st1.counter = st.counter
  | _, 0, _, h, _ => by omega
  | [], _ + 1, st, _, _ => ⟨st, rfl, rfl, rfl⟩
  | (Token.StartElement name, raw) :: toks, fuel + 1, st, h, hno => by
    have hm : matched c.repath c.path (st.stack.Push name).String = false :=
      hno _ (by simp [tokenEvents, startPaths])
    have ih := scanLoop_no_match c toks fuel { st with stack := st.stack.Push name }
      (by simpa using h)
      (fun s hs => hno s (by
        simp only [tokenEvents, List.map_cons, startPaths, List.mem_cons]
        exact Or.inr hs))
    simpa [tokenEvents, scanLoop, hm] using ih
  | (Token.EndElement name, raw) :: toks, fuel + 1, st, h, hno => by
    have ih := scanLoop_no_match c toks fuel { st with stack := st.stack.Pop.2 }
      (by simpa using h) (fun s hs => hno s (by simpa [tokenEvents, startPaths] using hs))
    simpa [tokenEvents, scanLoop] using ih
  | (Token.Other, raw) :: toks, fuel + 1, st, h, hno => by
    have ih := scanLoop_no_match c toks fuel st
      (by simpa using h) (fun s hs => hno s (by simpa [tokenEvents, startPaths] using hs))
    simpa [tokenEvents, scanLoop] using ih

theorem pushAll_array (ss : List String) :
    ∀ q : StringStack, (pushAll q ss).array = q.array ++ ss := by
  induction ss with
  | nil => intro q; simp [pushAll]
  | cons s ss ih =>
    intro q
    have h := ih (q.Push s)
    simp only [pushAll, List.foldl_cons] at h ⊢
    rw [h]
    simp [StringStack.Push]

theorem stringsJoin_cons (ss : List String) :
    ∀ s : String, stringsJoin (s :: ss) "/" = s ++ concatAll (ss.map (fun x => "/" ++ x)) := by
  induction ss with
  | nil => intro s; simp [stringsJoin, concatAll]
  | cons t ss ih =>
    intro s
    simp [stringsJoin, concatAll, ih t, String.append_assoc]

/-! ## Facts about the stack -/

theorem Push_Pop (q : StringStack) (s : String) : (q.Push s).Pop = (s, q) := by
  simp [StringStack.Push, StringStack.Pop]

theorem Pop_empty_array (q : StringStack) (h : q.array = []) : q.Pop.2 = q := by
  simp [StringStack.Pop, h]

theorem Push_length (q : StringStack) (s : String) :
    (q.Push s).array.length = q.array.length + 1 := by
  simp [StringStack.Push]

theorem Pop_length (q : StringStack) : q.Pop.2.array.length = q.array.length - 1 := by
  unfold StringStack.Pop
  cases h : q.array.getLast? with
  | none =>
    have : q.array = [] := List.getLast?_eq_none_iff.mp h
    simp [this]
  | some s => simp

theorem pushAll_append (q : StringStack) (ss : List String) (s : String) :
    pushAll q (ss ++ [s]) = (pushAll q ss).Push s := by
  simp [pushAll, List.foldl_append]

theorem popN_pushAll (q : StringStack) (ss : List String) :
    popN ss.length (pushAll q ss) = (ss.reverse, q) := by
  induction ss using List.reverseRecOn with
  | nil => rfl
  | append_singleton ss s ih =>
    rw [pushAll_append, List.length_append]
    simp only [List.length_singleton, popN, Push_Pop, ih, List.reverse_append,
      List.reverse_cons, List.reverse_nil, List.nil_append, List.singleton_append]

/-! ## Independence of the iteration bound -/

/-- The result of the scan loop does not depend on the iteration bound, as
long as the bound exceeds the number of events. -/
theorem scanLoop_fuel (c : Settings) : ∀ (fuel fuel1 : Nat) (evs : List Event) (st : LoopState),
    evs.length < fuel → evs.length < fuel1 → scanLoop c fuel evs st = scanLoop c fuel1 evs st
  | 0, _, _, _, h, _ => by omega
  | _ + 1, 0, _, _, _, h => by omega
  | _ + 1, _ + 1, [], _, _, _ => rfl
  | _ + 1, _ + 1, Event.error _ :: _, _, _, _ => rfl
  | fuel + 1, fuel1 + 1, Event.token (Token.StartElement name) _ :: rest, st, h, h1 => by
    have hlen : rest.length < fuel := by simpa using h
    have hlen1 : rest.length < fuel1 := by simpa using h1
    simp only [scanLoop]
    split
    · cases hd : DecodeElement rest 0 "" with
      | error msg => rfl
      | ok pr =>
        obtain ⟨text, rest1⟩ := pr
        have hr := DecodeElement_length rest 0 "" text rest1 hd
        simp only []
        split <;> exact scanLoop_fuel c fuel fuel1 rest1 _ (by omega) (by omega)
    · exact scanLoop_fuel c fuel fuel1 rest _ hlen hlen1
  | fuel + 1, fuel1 + 1, Event.token (Token.EndElement _) _ :: rest, st, h, h1 => by
    simp only [scanLoop]
    exact scanLoop_fuel c fuel fuel1 rest _ (by simpa using h) (by simpa using h1)
  | fuel + 1, fuel1 + 1, Event.token Token.Other _ :: rest, st, h, h1 => by
    simp only [scanLoop]
    exact scanLoop_fuel c fuel fuel1 rest _ (by simpa using h) (by simpa using h1)

/-! ## Decode errors -/

theorem tokenEvents_drop (toks : List (Token × String)) (n : Nat) :
    (tokenEvents toks).drop n = tokenEvents (toks.drop n) := by
  simp [tokenEvents, List.map_drop]

/-- The decoder on a run of tokens followed by a decode error: it returns
what it returns on the tokens alone if the element is closed within them,
and the decode error otherwise. -/
theorem DecodeElement_error_after (msg : String) (post : List Event) :
    ∀ (toks : List (Token × String)) (d : Nat) (acc : String),
      DecodeElement (tokenEvents toks ++ Event.error msg :: post) d acc =
        match DecodeElement (tokenEvents toks) d acc with
        | .ok (text, rest) => .ok (text, rest ++ Event.error msg :: post)
        | .error _ => .error msg
  | [], _, _ => by simp [tokenEvents, DecodeElement]
  | (Token.StartElement _, raw) :: toks, d, acc => by
    have ih := DecodeElement_error_after msg post toks (d + 1) (acc ++ raw)
    simpa [tokenEvents, DecodeElement] using ih
  | (Token.EndElement _, raw) :: toks, 0, acc => by
    simp [tokenEvents, DecodeElement]
  | (Token.EndElement _, raw) :: toks, d + 1, acc => by
    have ih := DecodeElement_error_after msg post toks d (acc ++ raw)
    simpa [tokenEvents, DecodeElement] using ih
  | (Token.Other, raw) :: toks, d, acc => by
    have ih := DecodeElement_error_after msg post toks d (acc ++ raw)
    simpa [tokenEvents, DecodeElement] using ih

/-- The scan loop on a run of tokens followed by a decode error ends with
that error, in the state in which the scan of the tokens alone ends. -/
theorem scanLoop_error_after (c : Settings) (msg : String) (post : List Event) :
    ∀ (fuel : Nat) (toks : List (Token × String)) (st : LoopState),
      toks.length < fuel →
      ∃ st1 e, scanLoop c fuel (tokenEvents toks) st = some (st1, e) ∧
        scanLoop c fuel (tokenEvents toks ++ Event.error msg :: post) st = some (st1, some msg)
  | 0, _, _, h => by omega
  | _ + 1, [], st, _ => ⟨st, none, rfl, rfl⟩
  | fuel + 1, (Token.StartElement name, raw) :: toks, st, h => by
    have hlen : toks.length < fuel := by simpa using h
    have hdec := DecodeElement_error_after msg post toks 0 ""
    have hcons : tokenEvents ((Token.StartElement name, raw) :: toks) =
        Event.token (Token.StartElement name) raw :: tokenEvents toks := rfl
    rw [hcons, List.cons_append]
    simp only [scanLoop]
    rw [hdec]
    split
    · cases hd : DecodeElement (tokenEvents toks) 0 "" with
      | error msg1 => exact ⟨_, _, rfl, rfl⟩
      | ok pr =>
        obtain ⟨text, rest1⟩ := pr
        obtain ⟨k, hk, hrest, _⟩ := DecodeElement_drop _ 0 "" text rest1 hd
        have hrest1 : rest1 = tokenEvents (toks.drop (k + 1)) := by
          rw [hrest]
          exact tokenEvents_drop toks (k + 1)
        have hl : (toks.drop (k + 1)).length < fuel := by
          simp only [List.length_drop]
          omega
        simp only []
        rw [hrest1]
        split
        · exact scanLoop_error_after c msg post fuel (toks.drop (k + 1)) _ hl
        · exact scanLoop_error_after c msg post fuel (toks.drop (k + 1)) _ hl
    · exact scanLoop_error_after c msg post fuel toks _ hlen
  | fuel + 1, (Token.EndElement name, raw) :: toks, st, h => by
    have hcons : tokenEvents ((Token.EndElement name, raw) :: toks) =
        Event.token (Token.EndElement name) raw :: tokenEvents toks := rfl
    rw [hcons, List.cons_append]
    simp only [scanLoop]
    exact scanLoop_error_after c msg post fuel toks _ (by simpa using h)
  | fuel + 1, (Token.Other, raw) :: toks, st, h => by
    have hcons : tokenEvents ((Token.Other, raw) :: toks) =
        Event.token Token.Other raw :: tokenEvents toks := rfl
    rw [hcons, List.cons_append]
    simp only [scanLoop]
    exact scanLoop_error_after c msg post fuel toks _ (by simpa using h)

/-! ## The output only grows -/

/-- What was on the standard output before the scan loop starts stays in
front of what the loop writes, and does not influence it. -/
theorem scanLoop_stdout_prefix (c : Settings) (p : String) :
    ∀ (fuel : Nat) (evs : List Event) (st : LoopState),
      scanLoop c fuel evs { st with stdout := p ++ st.stdout } =
        (scanLoop c fuel evs st).map
          (fun r => ({ r.1 with stdout := p ++ r.1.stdout }, r.2))
  | 0, _, _ => rfl
  | _ + 1, [], _ => rfl
  | _ + 1, Event.error _ :: _, _ => rfl
  | fuel + 1, Event.token (Token.StartElement name) raw :: rest, st => by
    simp only [scanLoop]
    have hout : (if derefBool c.verbose = true
          then p ++ st.stdout ++ verboseReport c (st.stack.Push name).String
          else p ++ st.stdout) =
        p ++ (if derefBool c.verbose = true
          then st.stdout ++ verboseReport c (st.stack.Push name).String else st.stdout) := by
      split <;> simp [String.append_assoc]
    rw [hout]
    split
    · cases hd : DecodeElement rest 0 "" with
      | error msg => rfl
      | ok pr =>
        obtain ⟨text, rest1⟩ := pr
        simp only []
        split
        · exact scanLoop_stdout_prefix c p fuel rest1
            { stack := (st.stack.Push name).Pop.2, counter := st.counter + 1,
              stdout := if derefBool c.verbose = true
                then st.stdout ++ verboseReport c (st.stack.Push name).String else st.stdout }
        · have ih := scanLoop_stdout_prefix c p fuel rest1
            { stack := (st.stack.Push name).Pop.2, counter := st.counter,
              stdout := (if derefBool c.verbose = true
                then st.stdout ++ verboseReport c (st.stack.Push name).String
                else st.stdout) ++ c.opener ++ text ++ c.closer }
          simp only [String.append_assoc] at ih ⊢
          exact ih
    · exact scanLoop_stdout_prefix c p fuel rest { st with stack := st.stack.Push name }
  | fuel + 1, Event.token (Token.EndElement _) raw :: rest, st => by
    simp only [scanLoop]
    exact scanLoop_stdout_prefix c p fuel rest { st with stack := st.stack.Pop.2 }
  | fuel + 1, Event.token Token.Other raw :: rest, st => by
    simp only [scanLoop]
    exact scanLoop_stdout_prefix c p fuel rest st

/-- The function `main` on the copy-through path: when the regexpath text
is `/` (and compiles), the version flag is off and the input opens, the
output is the input between the root lines. -/
theorem main_copy (compile : String → Option Regexp) (cl : CommandLine) (src : Source)
    (re : Regexp) (hre : compile (cl.regexpath.getD "") = some re)
    (hv : cl.v.getD false = false) (hopen : src.openError = none)
    (hsel : cl.regexpath.getD "" = "/") :
    main compile cl src =
      some { stdout := rootOpener (cl.root.getD "") ++ src.bytes ++ rootCloser (cl.root.getD ""),
             exit := Exit.ok } := by
  simp only [main, selectorSetup_flags, hre, Option.map_some']
  simp only [flagBool, flagString, derefBool, derefString, Option.getD_some, hv, hopen, hsel,
    if_true, Bool.false_eq_true, if_false, rootOpener, rootCloser]
  by_cases hr : cl.root.getD "" = "" <;> simp [hr, String.append_assoc]

/-! ## Verbose -/

/-- A scan that reaches the end of the stream has written, for each match
event in order, the report line (verbose on) and the emission (count off),
and has counted the match events when count is on. -/
theorem scanLoop_blocks (c : Settings) :
    ∀ (fuel : Nat) (evs : List Event) (st : LoopState) (pos : Nat) (st1 : LoopState),
      scanLoop c fuel evs st = some (st1, none) →
      st1.stdout = st.stdout ++
        concatAll ((matchEvents (matched c.repath c.path) fuel evs pos st.stack).map
          (matchOutput c))
  | 0, _, _, _, _, h => by simp [scanLoop] at h
  | _ + 1, [], st, _, st1, h => by
    simp only [scanLoop, Option.some.injEq, Prod.mk.injEq] at h
    rw [← h.1]
    simp [matchEvents, concatAll]
  | _ + 1, Event.error _ :: _, st, _, st1, h => by
    simp [scanLoop] at h
  | fuel + 1, Event.token (Token.StartElement name) _ :: rest, st, pos, st1, h => by
    simp only [scanLoop] at h
    simp only [matchEvents]
    by_cases hm : matched c.repath c.path (st.stack.Push name).String = true
    · simp only [hm, if_true] at h ⊢
      cases hd : DecodeElement rest 0 "" with
      | error msg => simp [hd] at h
      | ok pr =>
        obtain ⟨text, rest1⟩ := pr
        simp only [hd] at h
        by_cases hc : (c.count.isSome && derefBool c.count) = true
        · simp only [hc, if_true] at h
          have ih := scanLoop_blocks c fuel rest1 _
            (pos + 1 + (rest.length - rest1.length)) st1 h
          rw [ih]
          have hc1 : countOn c = true := hc
          by_cases hv : derefBool c.verbose = true <;>
            simp [hv, concatAll, matchOutput, hc1, String.append_assoc]
        · simp only [hc, if_false] at h
          have ih := scanLoop_blocks c fuel rest1 _
            (pos + 1 + (rest.length - rest1.length)) st1 h
          rw [ih]
          have hc1 : ¬ countOn c = true := hc
          by_cases hv : derefBool c.verbose = true <;>
            simp [hv, concatAll, matchOutput, hc1, emission, String.append_assoc]
    · simp only [hm, if_false] at h ⊢
      exact scanLoop_blocks c fuel rest _ (pos + 1) st1 h
  | fuel + 1, Event.token (Token.EndElement _) _ :: rest, st, pos, st1, h => by
    simp only [scanLoop] at h
    simp only [matchEvents]
    exact scanLoop_blocks c fuel rest _ (pos + 1) st1 h
  | fuel + 1, Event.token Token.Other _ :: rest, st, pos, st1, h => by
    simp only [scanLoop] at h
    simp only [matchEvents]
    exact scanLoop_blocks c fuel rest _ (pos + 1) st1 h

/-- How the scan loop ends, by the end of the stream or by which fatal
error, depends on the selector, the stream and the stack only: not on
verbose, count, the markers or what was written. -/
theorem scanLoop_exit (c c1 : Settings) (hre : c1.repath = c.repath) (hp : c1.path = c.path) :
    ∀ (fuel : Nat) (evs : List Event) (st st1 : LoopState), st1.stack = st.stack →
      (scanLoop c1 fuel evs st1).map (fun r => r.2) = (scanLoop c fuel evs st).map (fun r => r.2)
  | 0, _, _, _, _ => rfl
  | _ + 1, [], _, _, _ => rfl
  | _ + 1, Event.error _ :: _, _, _, _ => rfl
  | fuel + 1, Event.token (Token.StartElement name) _ :: rest, st, st1, hs => by
    simp only [scanLoop, hre, hp, hs]
    split
    · cases hd : DecodeElement rest 0 "" with
      | error msg => rfl
      | ok pr =>
        obtain ⟨text, rest1⟩ := pr
        simp only []
        by_cases h1 : (c1.count.isSome && derefBool c1.count) = true <;>
          by_cases h2 : (c.count.isSome && derefBool c.count) = true <;>
          simp only [h1, h2, if_true, if_false] <;>
          apply scanLoop_exit c c1 hre hp fuel rest1 <;> rfl
    · apply scanLoop_exit c c1 hre hp fuel rest
      rfl
  | fuel + 1, Event.token (Token.EndElement _) _ :: rest, st, st1, hs => by
    simp only [scanLoop, hs]
    apply scanLoop_exit c c1 hre hp fuel rest
    rfl
  | fuel + 1, Event.token Token.Other _ :: rest, st, st1, hs => by
    simp only [scanLoop]
    exact scanLoop_exit c c1 hre hp fuel rest _ _ hs

/-! ## Captured subtrees -/

theorem DecodeElement_end : ∀ (evs : List Event) (depth : Nat) (acc text : String)
    (rest : List Event), DecodeElement evs depth acc = .ok (text, rest) →
    ∃ k name raw, evs[k]? = some (Event.token (Token.EndElement name) raw) ∧
      rest = evs.drop (k + 1)
  | [], _, _, _, _, h => by simp [DecodeElement] at h
  | Event.error _ :: _, _, _, _, _, h => by simp [DecodeElement] at h
  | Event.token (Token.StartElement _) raw :: evs, depth, acc, text, rest, h => by
    simp only [DecodeElement] at h
    obtain ⟨k, name, raw1, hk, hrest⟩ := DecodeElement_end evs _ _ _ _ h
    exact ⟨k + 1, name, raw1, by simpa using hk, by simpa using hrest⟩
  | Event.token (Token.EndElement name) raw :: evs, 0, acc, text, rest, h => by
    simp only [DecodeElement, Except.ok.injEq, Prod.mk.injEq] at h
    exact ⟨0, name, raw, by simp, by simp [h.2]⟩
  | Event.token (Token.EndElement _) raw :: evs, d + 1, acc, text, rest, h => by
    simp only [DecodeElement] at h
    obtain ⟨k, name, raw1, hk, hrest⟩ := DecodeElement_end evs _ _ _ _ h
    exact ⟨k + 1, name, raw1, by simpa using hk, by simpa using hrest⟩
  | Event.token Token.Other raw :: evs, depth, acc, text, rest, h => by
    simp only [DecodeElement] at h
    obtain ⟨k, name, raw1, hk, hrest⟩ := DecodeElement_end evs _ _ _ _ h
    exact ⟨k + 1, name, raw1, by simpa using hk, by simpa using hrest⟩

theorem Captures_drop (evs : List Event) (n pos last : Nat) (e : MatchEvent)
    (h : Captures (evs.drop n) (pos + n) e last) : Captures evs pos e last := by
  obtain ⟨i, k, hpos, hlast, hdec, name, raw, hend⟩ := h
  refine ⟨n + i, k, by omega, by omega, ?_, name, raw, ?_⟩
  · rw [List.drop_drop] at hdec
    rw [List.drop_drop] at hdec
    have h1 : n + i + 1 = n + (i + 1) := by omega
    have h2 : n + i + k + 2 = n + (i + k + 2) := by omega
    rw [h1, h2]
    exact hdec
  · rw [List.getElem?_drop] at hend
    have h3 : n + i + k + 1 = n + (i + k + 1) := by omega
    rw [h3]
    exact hend

/-- Every matcher call is at the head of the stream or after it; every match
event is one of the matcher calls and captures an element of the stream, and
no matcher call lies inside that element: each call is at or before its
start element or after its end element. -/
theorem matchEvents_spans (m : String → Bool) :
    ∀ (fuel : Nat) (evs : List Event) (pos : Nat) (q : StringStack),
      (∀ c ∈ matcherCalls m fuel evs pos q, pos ≤ c.1) ∧
      (∀ e ∈ matchEvents m fuel evs pos q,
        (e.pos, e.path) ∈ matcherCalls m fuel evs pos q ∧
        ∃ last, Captures evs pos e last ∧
          ∀ c ∈ matcherCalls m fuel evs pos q, c.1 ≤ e.pos ∨ last < c.1)
  | 0, _, _, _ => by simp [matchEvents, matcherCalls]
  | _ + 1, [], _, _ => by simp [matchEvents, matcherCalls]
  | _ + 1, Event.error _ :: _, _, _ => by simp [matchEvents, matcherCalls]
  | fuel + 1, Event.token (Token.StartElement name) raw :: rest, pos, q => by
    simp only [matchEvents, matcherCalls]
    by_cases hm : m (q.Push name).String = true
    · simp only [hm, if_true]
      cases hd : DecodeElement rest 0 "" with
      | error msg => simp
      | ok pr =>
        obtain ⟨text, rest1⟩ := pr
        obtain ⟨k, ename, eraw, hend, hrest⟩ := DecodeElement_end rest 0 "" text rest1 hd
        have hklen : k < rest.length := by
          by_contra hcon
          rw [List.getElem?_eq_none (by omega)] at hend
          exact absurd hend (by simp)
        have hlen : pos + 1 + (rest.length - rest1.length) = pos + (k + 2) := by
          rw [hrest, List.length_drop]
          omega
        have hdrop : (Event.token (Token.StartElement name) raw :: rest).drop (k + 2) = rest1 := by
          rw [hrest]
          rfl
        have ih := matchEvents_spans m fuel rest1 (pos + (k + 2)) (q.Push name).Pop.2
        simp only [hlen]
        refine ⟨?_, ?_⟩
        · intro c hc
          rcases List.mem_cons.mp hc with rfl | hc
          · exact Nat.le_refl _
          · have := ih.1 c hc
            omega
        · intro e he
          rcases List.mem_cons.mp he with rfl | he
          · refine ⟨List.mem_cons_self _ _, pos + k + 1, ?_, ?_⟩
            · refine ⟨0, k, rfl, by omega, ?_, ename, eraw, ?_⟩
              · show DecodeElement rest 0 "" = _
                rw [hd, ← hdrop, Nat.zero_add]
              · simpa using hend
            · intro c hc
              rcases List.mem_cons.mp hc with rfl | hc
              · exact Or.inl (Nat.le_refl _)
              · have := ih.1 c hc
                exact Or.inr (by omega)
          · obtain ⟨hmem, last, hcap, hcalls⟩ := ih.2 e he
            refine ⟨List.mem_cons_of_mem _ hmem, last, ?_, ?_⟩
            · apply Captures_drop _ (k + 2)
              rw [hdrop]
              exact hcap
            · intro c hc
              rcases List.mem_cons.mp hc with rfl | hc
              · obtain ⟨i, _, hpos, _⟩ := hcap
                exact Or.inl (by show pos ≤ e.pos; omega)
              · exact hcalls c hc
    · simp only [hm, if_false]
      have ih := matchEvents_spans m fuel rest (pos + 1) (q.Push name)
      refine ⟨?_, ?_⟩
      · intro c hc
        rcases List.mem_cons.mp hc with rfl | hc
        · exact Nat.le_refl _
        · have := ih.1 c hc
          omega
      · intro e he
        obtain ⟨hmem, last, hcap, hcalls⟩ := ih.2 e he
        refine ⟨List.mem_cons_of_mem _ hmem, last, ?_, ?_⟩
        · exact Captures_drop _ 1 pos last e (by simpa using hcap)
        · intro c hc
          rcases List.mem_cons.mp hc with rfl | hc
          · obtain ⟨i, _, hpos, _⟩ := hcap
            exact Or.inl (by show pos ≤ e.pos; omega)
          · exact hcalls c hc
  | fuel + 1, Event.token (Token.EndElement _) raw :: rest, pos, q => by
    simp only [matchEvents, matcherCalls]
    have ih := matchEvents_spans m fuel rest (pos + 1) q.Pop.2
    refine ⟨fun c hc => by have := ih.1 c hc; omega, ?_⟩
    intro e he
    obtain ⟨hmem, last, hcap, hcalls⟩ := ih.2 e he
    exact ⟨hmem, last, Captures_drop _ 1 pos last e (by simpa using hcap), hcalls⟩
  | fuel + 1, Event.token Token.Other raw :: rest, pos, q => by
    simp only [matchEvents, matcherCalls]
    have ih := matchEvents_spans m fuel rest (pos + 1) q
    refine ⟨fun c hc => by have := ih.1 c hc; omega, ?_⟩
    intro e he
    obtain ⟨hmem, last, hcap, hcalls⟩ := ih.2 e he
    exact ⟨hmem, last, Captures_drop _ 1 pos last e (by simpa using hcap), hcalls⟩

/-- The scan depends on the selector only through its answers at the matcher
calls: a pattern that answers as `re` does on the paths of the matcher calls
of the scan with `re` gives the same scan. -/
theorem scanLoop_matcher_calls (c : Settings) (re re1 : Regexp) (hc : c.repath = some re) :
    ∀ (fuel : Nat) (evs : List Event) (st : LoopState) (pos : Nat),
      (∀ call ∈ matcherCalls re.MatchString fuel evs pos st.stack,
        re1.MatchString call.2 = re.MatchString call.2) →
      scanLoop { c with repath := some re1 } fuel evs st = scanLoop c fuel evs st
  | 0, _, _, _, _ => rfl
  | _ + 1, [], _, _, _ => rfl
  | _ + 1, Event.error _ :: _, _, _, _ => rfl
  | fuel + 1, Event.token (Token.StartElement name) raw :: rest, st, pos, h => by
    have hvr : ∀ s, verboseReport { c with repath := some re1 } s = verboseReport c s := by
      intro s
      simp [verboseReport, hc]
    have hhead : (pos, (st.stack.Push name).String) ∈
        matcherCalls re.MatchString (fuel + 1)
          (Event.token (Token.StartElement name) raw :: rest) pos st.stack := by
      simp only [matcherCalls]
      split
      · split <;> simp
      · simp
    have hcall := h _ hhead
    simp only at hcall
    simp only [scanLoop, matched, hc, hcall, hvr]
    simp only [matcherCalls] at h
    by_cases hm : re.MatchString (st.stack.Push name).String = true
    · simp only [hm, if_true] at h ⊢
      cases hd : DecodeElement rest 0 "" with
      | error msg => rfl
      | ok pr =>
        obtain ⟨text, rest1⟩ := pr
        simp only [hd] at h
        simp only []
        split
        · exact scanLoop_matcher_calls c re re1 hc fuel rest1 _ _
            (fun call hcl => h call (List.mem_cons_of_mem _ hcl))
        · exact scanLoop_matcher_calls c re re1 hc fuel rest1 _ _
            (fun call hcl => h call (List.mem_cons_of_mem _ hcl))
    · simp only [hm, if_false] at h ⊢
      exact scanLoop_matcher_calls c re re1 hc fuel rest _ _
        (fun call hcl => h call (List.mem_cons_of_mem _ hcl))
  | fuel + 1, Event.token (Token.EndElement _) raw :: rest, st, pos, h => by
    simp only [matcherCalls] at h
    simp only [scanLoop]
    exact scanLoop_matcher_calls c re re1 hc fuel rest _ _ h
  | fuel + 1, Event.token Token.Other raw :: rest, st, pos, h => by
    simp only [matcherCalls] at h
    simp only [scanLoop]
    exact scanLoop_matcher_calls c re re1 hc fuel rest _ _ h

/-! ## The stack and the open elements -/

/-- The scan loop is the repetition of `loopStep`. -/
theorem scanLoop_step (c : Settings) (fuel : Nat) (evs : List Event) (st : LoopState) :
    scanLoop c (fuel + 1) evs st =
      match loopStep c evs st with
      | Step.done st1 fatal => some (st1, fatal)
      | Step.next rest st1 => scanLoop c fuel rest st1 := by
  cases evs with
  | nil => rfl
  | cons ev rest =>
    cases ev with
    | error msg => rfl
    | token t raw =>
      cases t with
      | StartElement name =>
        simp only [scanLoop, loopStep]
        split
        · cases DecodeElement rest 0 "" with
          | error msg => rfl
          | ok pr =>
            simp only []
            split <;> rfl
        · rfl
      | EndElement name => rfl
      | Other => rfl

theorem Pop_array (q : StringStack) : q.Pop.2.array = q.array.dropLast := by
  unfold StringStack.Pop
  cases h : q.array.getLast? with
  | none =>
    have : q.array = [] := List.getLast?_eq_none_iff.mp h
    simp [this]
  | some s => simp

theorem openAfter_append : ∀ (a b : List Event) (names : List String),
    openAfter names (a ++ b) = openAfter (openAfter names a) b
  | [], _, _ => rfl
  | Event.error _ :: a, b, names => by
    simpa [openAfter] using openAfter_append a b names
  | Event.token (Token.StartElement name) _ :: a, b, names => by
    simpa [openAfter] using openAfter_append a b (names ++ [name])
  | Event.token (Token.EndElement _) _ :: a, b, names => by
    simpa [openAfter] using openAfter_append a b names.dropLast
  | Event.token Token.Other _ :: a, b, names => by
    simpa [openAfter] using openAfter_append a b names

theorem openAfter_length : ∀ (evs : List Event) (names : List String),
    (openAfter names evs).length = nestingDepth names.length evs
  | [], _ => rfl
  | Event.error _ :: evs, names => by
    simpa [openAfter, nestingDepth] using openAfter_length evs names
  | Event.token (Token.StartElement name) _ :: evs, names => by
    simpa [openAfter, nestingDepth] using openAfter_length evs (names ++ [name])
  | Event.token (Token.EndElement _) _ :: evs, names => by
    simpa [openAfter, nestingDepth] using openAfter_length evs names.dropLast
  | Event.token Token.Other _ :: evs, names => by
    simpa [openAfter, nestingDepth] using openAfter_length evs names

/-- The tokens that the decoder consumes for an element close that element
and the `depth` elements opened inside it and still open. -/
theorem DecodeElement_openAfter : ∀ (evs : List Event) (depth : Nat) (acc text : String)
    (rest : List Event), DecodeElement evs depth acc = .ok (text, rest) →
    ∃ consumed, evs = consumed ++ rest ∧
      ∀ names : List String, openAfter names consumed = List.dropLast^[depth + 1] names
  | [], _, _, _, _, h => by simp [DecodeElement] at h
  | Event.error _ :: _, _, _, _, _, h => by simp [DecodeElement] at h
  | Event.token (Token.StartElement name) raw :: evs, depth, acc, text, rest, h => by
    simp only [DecodeElement] at h
    obtain ⟨consumed, hevs, hopen⟩ := DecodeElement_openAfter evs _ _ _ _ h
    refine ⟨Event.token (Token.StartElement name) raw :: consumed, by simp [hevs], ?_⟩
    intro names
    simp only [openAfter, hopen, Function.iterate_succ, Function.comp_apply,
      List.dropLast_concat]
  | Event.token (Token.EndElement name) raw :: evs, 0, acc, text, rest, h => by
    simp only [DecodeElement, Except.ok.injEq, Prod.mk.injEq] at h
    refine ⟨[Event.token (Token.EndElement name) raw], by simp [h.2], ?_⟩
    intro names
    simp [openAfter]
  | Event.token (Token.EndElement name) raw :: evs, d + 1, acc, text, rest, h => by
    simp only [DecodeElement] at h
    obtain ⟨consumed, hevs, hopen⟩ := DecodeElement_openAfter evs _ _ _ _ h
    refine ⟨Event.token (Token.EndElement name) raw :: consumed, by simp [hevs], ?_⟩
    intro names
    simp only [openAfter, hopen, Function.iterate_succ, Function.comp_apply]
  | Event.token Token.Other raw :: evs, depth, acc, text, rest, h => by
    simp only [DecodeElement] at h
    obtain ⟨consumed, hevs, hopen⟩ := DecodeElement_openAfter evs _ _ _ _ h
    refine ⟨Event.token Token.Other raw :: consumed, by simp [hevs], ?_⟩
    intro names
    simp only [openAfter, hopen]

/-- One iteration of the loop consumes a non-empty run of tokens and leaves
on the stack the names that are open after them. -/
theorem loopStep_openAfter (c : Settings) (evs rest : List Event) (st st1 : LoopState)
    (h : loopStep c evs st = Step.next rest st1) :
    ∃ consumed, consumed ≠ [] ∧ evs = consumed ++ rest ∧
      st1.stack.array = openAfter st.stack.array consumed := by
  cases evs with
  | nil => simp [loopStep] at h
  | cons ev tail =>
    cases ev with
    | error msg => simp [loopStep] at h
    | token t raw =>
      cases t with
      | StartElement name =>
        simp only [loopStep] at h
        by_cases hm : matched c.repath c.path (st.stack.Push name).String = true
        · simp only [hm, if_true] at h
          cases hd : DecodeElement tail 0 "" with
          | error msg => simp [hd] at h
          | ok pr =>
            obtain ⟨text, rest1⟩ := pr
            obtain ⟨consumed, htail, hopen⟩ := DecodeElement_openAfter tail 0 "" text rest1 hd
            simp only [hd] at h
            have hstack : st1.stack = (st.stack.Push name).Pop.2 ∧ rest = rest1 := by
              split at h <;> simp only [Step.next.injEq] at h <;> exact ⟨by rw [← h.2], h.1.symm⟩
            refine ⟨Event.token (Token.StartElement name) raw :: consumed, by simp, ?_, ?_⟩
            · rw [hstack.2, htail]
              simp
            · rw [hstack.1, Push_Pop]
              simp [openAfter, hopen]
        · simp only [hm, Bool.false_eq_true, if_false, Step.next.injEq] at h
          refine ⟨[Event.token (Token.StartElement name) raw], by simp, by simp [h.1], ?_⟩
          rw [← h.2]
          simp [openAfter, StringStack.Push]
      | EndElement name =>
        simp only [loopStep, Step.next.injEq] at h
        refine ⟨[Event.token (Token.EndElement name) raw], by simp, by simp [h.1], ?_⟩
        rw [← h.2]
        simp [openAfter, Pop_array]
      | Other =>
        simp only [loopStep, Step.next.injEq] at h
        refine ⟨[Event.token Token.Other raw], by simp, by simp [h.1], ?_⟩
        rw [← h.2]
        simp [openAfter]

/-- After any number of iterations the stack holds the names of the
elements that are open after the tokens consumed so far. -/
theorem iterations_openAfter (c : Settings) :
    ∀ (n : Nat) (evs rest : List Event) (st st1 : LoopState),
      iterations c n evs st = some (rest, st1) →
      ∃ consumed, evs = consumed ++ rest ∧
        st1.stack.array = openAfter st.stack.array consumed
  | 0, evs, rest, st, st1, h => by
    simp only [iterations, Option.some.injEq, Prod.mk.injEq] at h
    exact ⟨[], by simp [h.1], by rw [← h.2]; rfl⟩
  | n + 1, evs, rest, st, st1, h => by
    simp only [iterations] at h
    cases hs : loopStep c evs st with
    | done st2 fatal => simp [hs] at h
    | next rest2 st2 =>
      simp only [hs] at h
      obtain ⟨c1, _, hevs1, hopen1⟩ := loopStep_openAfter c evs rest2 st st2 hs
      obtain ⟨c2, hevs2, hopen2⟩ := iterations_openAfter c n rest2 rest st2 st1 h
      refine ⟨c1 ++ c2, by rw [hevs1, hevs2, List.append_assoc], ?_⟩
      rw [hopen2, hopen1, openAfter_append]

/-- On a balanced stream the decoder finds the end of the element, and what
is left of the stream is balanced. -/
theorem DecodeElement_balanced : ∀ (evs : List Event) (k D : Nat) (acc : String),
    balanced (D + 1 + k) evs = true →
    ∃ text rest, DecodeElement evs k acc = .ok (text, rest) ∧ balanced D rest = true
  | [], k, D, _, h => by simp [balanced] at h
  | Event.error _ :: _, _, _, _, h => by simp [balanced] at h
  | Event.token (Token.StartElement _) raw :: evs, k, D, acc, h => by
    simp only [balanced] at h
    simp only [DecodeElement]
    exact DecodeElement_balanced evs (k + 1) D (acc ++ raw) h
  | Event.token (Token.EndElement _) raw :: evs, 0, D, acc, h => by
    simp only [Nat.add_zero, balanced] at h
    exact ⟨acc, evs, rfl, h⟩
  | Event.token (Token.EndElement _) raw :: evs, k + 1, D, acc, h => by
    have hk : D + 1 + (k + 1) = (D + 1 + k) + 1 := rfl
    simp only [hk, balanced] at h
    simp only [DecodeElement]
    exact DecodeElement_balanced evs k D (acc ++ raw) h
  | Event.token Token.Other raw :: evs, k, D, acc, h => by
    simp only [balanced] at h
    simp only [DecodeElement]
    exact DecodeElement_balanced evs k D (acc ++ raw) h

/-- On a balanced stream the scan reaches the end of the stream, with an
empty stack. -/
theorem scanLoop_balanced (c : Settings) :
    ∀ (fuel : Nat) (evs : List Event) (st : LoopState),
      evs.length < fuel → balanced st.stack.array.length evs = true →
      ∃ st1, scanLoop c fuel evs st = some (st1, none) ∧ st1.stack.array = []
  | 0, _, _, h, _ => by omega
  | _ + 1, [], st, _, hb => by
    simp only [balanced, beq_iff_eq] at hb
    exact ⟨st, rfl, List.length_eq_zero.mp hb⟩
  | _ + 1, Event.error _ :: _, _, _, hb => by simp [balanced] at hb
  | fuel + 1, Event.token (Token.StartElement name) raw :: rest, st, h, hb => by
    have hlen : rest.length < fuel := by simpa using h
    simp only [balanced] at hb
    simp only [scanLoop]
    split
    · obtain ⟨text, rest1, hd, hb1⟩ :=
        DecodeElement_balanced rest 0 st.stack.array.length "" (by simpa using hb)
      have hr := DecodeElement_length rest 0 "" text rest1 hd
      simp only [hd, Push_Pop]
      split
      · exact scanLoop_balanced c fuel rest1 _ (by omega) hb1
      · exact scanLoop_balanced c fuel rest1 _ (by omega) hb1
    · exact scanLoop_balanced c fuel rest _ hlen (by simpa [Push_length] using hb)
  | fuel + 1, Event.token (Token.EndElement name) raw :: rest, st, h, hb => by
    have hlen : rest.length < fuel := by simpa using h
    simp only [scanLoop]
    cases hq : st.stack.array.length with
    | zero => simp [hq, balanced] at hb
    | succ d =>
      rw [hq] at hb
      simp only [balanced] at hb
      exact scanLoop_balanced c fuel rest _ hlen (by simpa [Pop_length, hq] using hb)
  | fuel + 1, Event.token Token.Other raw :: rest, st, h, hb => by
    simp only [balanced] at hb
    simp only [scanLoop]
    exact scanLoop_balanced c fuel rest _ (by simpa using h) hb

/-- The exact comparison of the matching block, which `main` never reaches:
a selector that does not begin with `/` equals no rendered path. -/
theorem matched_exact_no_leading_slash (p : String) (q : StringStack)
    (h : stringsHasPrefix p "/" = false) : matched none (some p) q.String = false := by
  simp only [matched, derefString, Option.getD_some, decide_eq_false_iff_not]
  intro hp
  rw [hp] at h
  simp [stringsHasPrefix, StringStack.String, String.data_append] at h

/-! ## End tags that close nothing -/

/-- On a well-formed run of tags `Token` returns the tags themselves, and
then goes on with the rest of the input, the same elements being open as
before the run. -/
theorem tokenResults_wellFormed : ∀ (pre : List (Token × String)) (stk base : List String)
    (rest : List (Token × String)), wellFormed stk pre = true →
    tokenResults (stk ++ base) (pre ++ rest) = tokenEvents pre ++ tokenResults base rest
  | [], stk, base, rest, h => by
    simp only [wellFormed, List.isEmpty_iff] at h
    subst h
    rfl
  | (Token.StartElement name, raw) :: pre, stk, base, rest, h => by
    simp only [wellFormed] at h
    have ih := tokenResults_wellFormed pre (name :: stk) base rest h
    simp only [List.cons_append] at ih
    simp only [List.cons_append, tokenResults, ih]
    rfl
  | (Token.EndElement name, raw) :: pre, [], base, rest, h => by
    simp [wellFormed] at h
  | (Token.EndElement name, raw) :: pre, s :: stk, base, rest, h => by
    simp only [wellFormed, Bool.and_eq_true, decide_eq_true_eq] at h
    have ih := tokenResults_wellFormed pre stk base rest h.2
    have hcons : tokenEvents ((Token.EndElement name, raw) :: pre) =
        Event.token (Token.EndElement name) raw :: tokenEvents pre := rfl
    rw [hcons]
    simp only [List.cons_append, tokenResults, closeTo, h.1, if_true, List.nil_append]
    exact congrArg _ ih
  | (Token.Other, raw) :: pre, stk, base, rest, h => by
    simp only [wellFormed] at h
    have ih := tokenResults_wellFormed pre stk base rest h
    simp only [List.cons_append, tokenResults, ih]
    rfl

/-- The run of `main`, on the tokenizing path, for a stream of tokens
followed by a decode error: it is fatal with that error, and its output is
what the scan loop had written when it had processed the tokens. -/
theorem main_tokens_then_error (compile : String → Option Regexp) (cl : CommandLine)
    (re : Regexp) (bytes msg : String) (toks : List (Token × String)) (post : List Event)
    (hre : compile (cl.regexpath.getD "") = some re) (hv : cl.v.getD false = false)
    (hsel : cl.regexpath.getD "" ≠ "/") :
    ∃ st e,
      scanLoop (settingsOf re cl) (toks.length + 1) (tokenEvents toks)
          { stack := StringStack.empty, counter := 0,
            stdout := rootOpener (cl.root.getD "") } = some (st, e) ∧
      main compile cl
          { bytes := bytes, events := tokenEvents toks ++ Event.error msg :: post } =
        some { stdout := st.stdout, exit := Exit.fatal msg } := by
  have hlen : (tokenEvents toks).length = toks.length := by simp [tokenEvents]
  have hbound : toks.length <
      (tokenEvents toks ++ Event.error msg :: post).length + 1 := by
    simp only [List.length_append, hlen, List.length_cons]
    omega
  obtain ⟨st, e, h1, h2⟩ := scanLoop_error_after (settingsOf re cl) msg post
    ((tokenEvents toks ++ Event.error msg :: post).length + 1) toks
    { stack := StringStack.empty, counter := 0, stdout := rootOpener (cl.root.getD "") }
    hbound
  refine ⟨st, e, ?_, ?_⟩
  · rw [← h1]
    exact scanLoop_fuel (settingsOf re cl) _ _ _ _ (by omega) (by omega)
  · rw [main_scan compile cl _ re hre hv rfl hsel]
    simp only [h2]

theorem wellFormed_balanced : ∀ (pre : List (Token × String)) (stk : List String),
    wellFormed stk pre = true → balanced stk.length (tokenEvents pre) = true
  | [], stk, h => by
    simp only [wellFormed, List.isEmpty_iff] at h
    subst h
    rfl
  | (Token.StartElement name, raw) :: pre, stk, h => by
    simp only [wellFormed] at h
    have hcons : tokenEvents ((Token.StartElement name, raw) :: pre) =
        Event.token (Token.StartElement name) raw :: tokenEvents pre := rfl
    rw [hcons]
    simp only [balanced]
    exact wellFormed_balanced pre (name :: stk) h
  | (Token.EndElement name, raw) :: pre, [], h => by
    simp [wellFormed] at h
  | (Token.EndElement name, raw) :: pre, s :: stk, h => by
    simp only [wellFormed, Bool.and_eq_true, decide_eq_true_eq] at h
    exact wellFormed_balanced pre stk h.2
  | (Token.Other, raw) :: pre, stk, h => by
    simp only [wellFormed] at h
    have hcons : tokenEvents ((Token.Other, raw) :: pre) =
        Event.token Token.Other raw :: tokenEvents pre := rfl
    rw [hcons]
    simp only [balanced]
    exact wellFormed_balanced pre stk h

/-- A scan that reaches the end of the stream has counted its match events
when count is on, and has left the counter alone when count is off. -/
theorem scanLoop_counter (c : Settings) :
    ∀ (fuel : Nat) (evs : List Event) (st : LoopState) (pos : Nat) (st1 : LoopState),
      scanLoop c fuel evs st = some (st1, none) →
      st1.counter = st.counter +
        (if countOn c then
          (matchEvents (matched c.repath c.path) fuel evs pos st.stack).length
         else 0)
  | 0, _, _, _, _, h => by simp [scanLoop] at h
  | _ + 1, [], st, _, st1, h => by
    simp only [scanLoop, Option.some.injEq, Prod.mk.injEq] at h
    rw [← h.1]
    simp [matchEvents]
  | _ + 1, Event.error _ :: _, st, _, st1, h => by
    simp [scanLoop] at h
  | fuel + 1, Event.token (Token.StartElement name) _ :: rest, st, pos, st1, h => by
    simp only [scanLoop] at h
    simp only [matchEvents]
    by_cases hm : matched c.repath c.path (st.stack.Push name).String = true
    · simp only [hm, if_true] at h ⊢
      cases hd : DecodeElement rest 0 "" with
      | error msg => simp [hd] at h
      | ok pr =>
        obtain ⟨text, rest1⟩ := pr
        simp only [hd] at h
        by_cases hc : (c.count.isSome && derefBool c.count) = true
        · simp only [hc, if_true] at h
          have ih := scanLoop_counter c fuel rest1 _
            (pos + 1 + (rest.length - rest1.length)) st1 h
          have hc1 : countOn c = true := hc
          simp only [hc1, if_true] at ih ⊢
          rw [ih]
          simp only [List.length_cons]
          omega
        · simp only [hc, if_false] at h
          have ih := scanLoop_counter c fuel rest1 _
            (pos + 1 + (rest.length - rest1.length)) st1 h
          have hc1 : ¬ countOn c = true := hc
          simp only [hc1, if_false] at ih ⊢
          exact ih
    · simp only [hm, Bool.false_eq_true, if_false] at h ⊢
      exact scanLoop_counter c fuel rest _ (pos + 1) st1 h
  | fuel + 1, Event.token (Token.EndElement _) _ :: rest, st, pos, st1, h => by
    simp only [scanLoop] at h
    simp only [matchEvents]
    exact scanLoop_counter c fuel rest _ (pos + 1) st1 h
  | fuel + 1, Event.token Token.Other _ :: rest, st, pos, st1, h => by
    simp only [scanLoop] at h
    simp only [matchEvents]
    exact scanLoop_counter c fuel rest _ (pos + 1) st1 h

/-! ## The claims -/

/-- C1 (as the code behaves): with the selector given through the path flag
as `/a/b` and every other flag absent, the run on `<a><b>x</b><b>y</b></a>`
does not write `<b>x</b><b>y</b>`: the path flag is overwritten by the empty
regexpath, the empty pattern matches the first start element `a`, and the
output is the inner XML of `a` between the markers `<>` and `</>`. -/
theorem path_flag_run_on_sample :
    main compileLiteral { path := some "/a/b" } sampleSource =
      some { stdout := "<><b>x</b><b>y</b></>", exit := Exit.ok } := by
  decide

/-- C2: the matching block matches a rendered path `s`, in exact mode
(`repath` nil), if and only if `s` equals the selector string, and in
pattern mode (`repath` set), if and only if `MatchString`, the unanchored
search of the pattern, succeeds on `s`; for a pattern `p` of ordinary
characters this is the case if and only if `p` occurs somewhere within `s`,
so that the pattern `/a` matches the path `/x/a/b`, which differs from it. -/
theorem matched_exact_or_search (path : Ptr String) (s : String) :
    (matched none path s = true ↔ s = derefString path) ∧
    (∀ re : Regexp, matched (some re) path s = true ↔ re.MatchString s = true) ∧
    (∀ p : String, ∃ re, compileLiteral p = some re ∧
      (matched (some re) path s = true ↔ ∃ pre post : String, s = pre ++ p ++ post)) ∧
    (∃ re, compileLiteral "/a" = some re ∧ matched (some re) path "/x/a/b" = true) := by
  refine ⟨?_, ?_, ?_, ?_⟩
  · simp only [matched, decide_eq_true_eq]
    exact eq_comm
  · intro re
    rfl
  · intro p
    exact ⟨_, rfl, containsChars_string_iff p s⟩
  · refine ⟨_, rfl, ?_⟩
    show containsChars "/a".data "/x/a/b".data = true
    decide

/-- C3 (as the code behaves): with the path flag given as `/a/b` and the
regexpath flag absent, hence empty, the selector setup still leaves `repath`
set (pattern mode) and overwrites `path` by the empty regexpath text. -/
theorem selectorSetup_empty_regexpath :
    (selectorSetup compileLiteral (flagString (some "/a/b") "/") (flagString none "")).map
      (fun r => (r.1.isSome, r.1.map Regexp.expr, r.2)) = some (true, some "", some "") := by
  decide

/-- C4 (as the code behaves): with no flag at all (path left at its default
`/`, no regexpath) the run on `<a><b>x</b><b>y</b></a>` is not a copy of the
input: the tokens are scanned with the empty pattern and the output is
`<><b>x</b><b>y</b></>`; with root `r` it is that text between `<r>` and
`</r>` lines. -/
theorem default_flags_run_on_sample :
    sampleSource.bytes = "<a><b>x</b><b>y</b></a>" ∧
    main compileLiteral { } sampleSource =
      some { stdout := "<><b>x</b><b>y</b></>", exit := Exit.ok } ∧
    main compileLiteral { root := some "r" } sampleSource =
      some { stdout := "<r>\n<><b>x</b><b>y</b></></r>\n", exit := Exit.ok } := by
  decide

/-- C5 (the claim as stated fails): with the selector `/` (regexpath `/`)
and count on, root empty, verbose off, the run on `<a><b>x</b><b>y</b></a>`
copies the input to the output and prints no count: the output is not the
decimal rendering of a number. -/
theorem count_mode_selector_slash :
    main compileLiteral { regexpath := some "/", count := some true } sampleSource =
      some { stdout := "<a><b>x</b><b>y</b></a>", exit := Exit.ok } ∧
    "<a><b>x</b><b>y</b></a>".data.all Char.isDigit = false := by
  decide

/-- C5 (amended): for every token stream and every selector other than `/`,
with count on, root empty and verbose off, the run has an outcome; when the
scan reaches the end of the stream the output is exactly the decimal
rendering of the number of match events of the scan, and when a decode error
stops it the output is empty: no opener, captured content or closer is ever
written.  For the input `<a><b>x</b><b>y</b></a>` with the pattern `/a/b` as
selector the output is exactly `2`. -/
theorem count_mode_output (compile : String → Option Regexp) (cl : CommandLine)
    (src : Source) (re : Regexp) (hre : compile (cl.regexpath.getD "") = some re)
    (hv : cl.v.getD false = false) (hopen : src.openError = none)
    (hsel : cl.regexpath.getD "" ≠ "/") (hcount : cl.count = some true)
    (hroot : cl.root.getD "" = "") (hverbose : cl.verbose.getD false = false) :
    (∃ out, main compile cl src = some out ∧
      ((out.exit = Exit.ok ∧
          out.stdout = toString (matchEventsOf re.MatchString src.events).length) ∨
        (∃ msg, out.exit = Exit.fatal msg ∧ out.stdout = ""))) ∧
    main compileLiteral { regexpath := some "/a/b", count := some true } sampleSource =
      some { stdout := "2", exit := Exit.ok } := by
  refine ⟨?_, by decide⟩
  rw [main_scan compile cl src re hre hv hopen hsel]
  have hq : derefBool (settingsOf re cl).verbose = false := by
    simp [settingsOf, derefBool, hverbose]
  have hc : countOn (settingsOf re cl) = true := by
    simp [countOn, settingsOf, derefBool, hcount]
  obtain ⟨r, hr⟩ := scanLoop_total (settingsOf re cl) (src.events.length + 1) src.events
    { stack := StringStack.empty, counter := 0, stdout := rootOpener (cl.root.getD "") }
    (Nat.lt_succ_self _)
  have hspec := scanLoop_quiet (settingsOf re cl) hq _ _ _ 0 r hr
  simp only [hc, if_true, String.append_empty, Nat.zero_add] at hspec
  have hm : matched (settingsOf re cl).repath (settingsOf re cl).path = re.MatchString := rfl
  rw [hm] at hspec
  have hro : rootOpener (cl.root.getD "") = "" := by simp [rootOpener, hroot]
  have hrc : rootCloser (cl.root.getD "") = "" := by simp [rootCloser, hroot]
  obtain ⟨st, e⟩ := r
  rw [hr]
  cases e with
  | some msg =>
    refine ⟨_, rfl, Or.inr ⟨msg, rfl, ?_⟩⟩
    simpa [hro] using hspec.1
  | none =>
    refine ⟨_, rfl, Or.inl ⟨rfl, ?_⟩⟩
    have h1 : st.stdout = "" := by simpa [hro] using hspec.1
    have h2 : st.counter = (matchEventsOf re.MatchString src.events).length := by
      simpa [matchEventsOf] using hspec.2
    simp [hcount, hverbose, hrc, h1, h2]

/-- C5 (witness): the amended claim at the input `<a><b>x</b><b>y</b></a>`
with the pattern `/a/b` and count on. -/
theorem count_mode_output_witness :
    (∃ out, main compileLiteral { regexpath := some "/a/b", count := some true } sampleSource
        = some out ∧
      ((out.exit = Exit.ok ∧
          out.stdout = toString (matchEventsOf
            (fun s => containsChars "/a/b".data s.data) sampleSource.events).length) ∨
        (∃ msg, out.exit = Exit.fatal msg ∧ out.stdout = ""))) ∧
    main compileLiteral { regexpath := some "/a/b", count := some true } sampleSource =
      some { stdout := "2", exit := Exit.ok } :=
  count_mode_output compileLiteral { regexpath := some "/a/b", count := some true }
    sampleSource { expr := "/a/b", MatchString := fun s => containsChars "/a/b".data s.data }
    rfl rfl rfl (by decide) rfl rfl rfl

/-- C6 (the claim as stated fails): with count off and verbose on, a match
event appends more than opener, content and closer.  On
`<a><b>x</b><b>y</b></a>` with the pattern `/a/b` each emission is preceded,
on the primary output, by the line reporting the match, so the output is not
the concatenation `<b>x</b><b>y</b>` of the emissions. -/
theorem emission_verbose_on :
    main compileLiteral { regexpath := some "/a/b", verbose := some true } sampleSource =
      some { stdout := "Matched /a/b against regular expression /a/b\n<b>x</b>" ++
                "Matched /a/b against regular expression /a/b\n<b>y</b>",
             exit := Exit.ok } ∧
    concatAll ((matchEventsOf (fun s => containsChars "/a/b".data s.data)
        sampleSource.events).map (emission "<b>" "</b>")) = "<b>x</b><b>y</b>" := by
  decide

/-- C6 (amended): for every token stream and every selector other than `/`,
with count off and verbose off, the run has an outcome whose primary output
is the root opener line (if root is set), then for each match event of the
scan, in the order of the events, exactly opener, captured content, closer,
then the root closer line (if root is set and the scan reached the end of
the stream).  The match events are in document order: each sits at a start
element of the stream whose rendered path the selector matches, its content
is the raw bytes read after that start element, unchanged, and the positions
strictly increase along the list. -/
theorem emission_output (compile : String → Option Regexp) (cl : CommandLine)
    (src : Source) (re : Regexp) (hre : compile (cl.regexpath.getD "") = some re)
    (hv : cl.v.getD false = false) (hopen : src.openError = none)
    (hsel : cl.regexpath.getD "" ≠ "/") (hcount : cl.count.getD false = false)
    (hverbose : cl.verbose.getD false = false) :
    (∃ out, main compile cl src = some out ∧
      out.stdout = rootOpener (cl.root.getD "") ++
        concatAll ((matchEventsOf re.MatchString src.events).map
          (emission (markers (cl.rename.getD "") (cl.regexpath.getD "")).1
            (markers (cl.rename.getD "") (cl.regexpath.getD "")).2)) ++
        (if out.exit = Exit.ok then rootCloser (cl.root.getD "") else "")) ∧
    (∀ e ∈ matchEventsOf re.MatchString src.events,
      EventAt src.events 0 e ∧ re.MatchString e.path = true) ∧
    (matchEventsOf re.MatchString src.events).Pairwise (fun a b => a.pos < b.pos) := by
  refine ⟨?_, matchEvents_positions re.MatchString _ src.events 0 StringStack.empty⟩
  rw [main_scan compile cl src re hre hv hopen hsel]
  have hq : derefBool (settingsOf re cl).verbose = false := by
    simp [settingsOf, derefBool, hverbose]
  have hc : countOn (settingsOf re cl) = false := by
    simp [countOn, settingsOf, derefBool, hcount]
  obtain ⟨r, hr⟩ := scanLoop_total (settingsOf re cl) (src.events.length + 1) src.events
    { stack := StringStack.empty, counter := 0, stdout := rootOpener (cl.root.getD "") }
    (Nat.lt_succ_self _)
  have hspec := (scanLoop_quiet (settingsOf re cl) hq _ _ _ 0 r hr).1
  simp only [hc, Bool.false_eq_true, if_false] at hspec
  have hm : matched (settingsOf re cl).repath (settingsOf re cl).path = re.MatchString := rfl
  rw [hm] at hspec
  obtain ⟨st, e⟩ := r
  rw [hr]
  cases e with
  | some msg =>
    refine ⟨_, rfl, ?_⟩
    simpa [matchEventsOf, settingsOf] using hspec
  | none =>
    refine ⟨_, rfl, ?_⟩
    have h1 : st.stdout = _ := hspec
    simp [hcount, h1, matchEventsOf, settingsOf]

/-- C6 (witness): the amended claim at the input `<a><b>x</b><b>y</b></a>`
with the pattern `/a/b`, where the output is `<b>x</b><b>y</b>`. -/
theorem emission_output_witness :
    main compileLiteral { regexpath := some "/a/b" } sampleSource =
      some { stdout := "<b>x</b><b>y</b>", exit := Exit.ok } ∧
    ((∃ out, main compileLiteral { regexpath := some "/a/b" } sampleSource = some out ∧
      out.stdout = rootOpener "" ++
        concatAll ((matchEventsOf (fun s => containsChars "/a/b".data s.data)
          sampleSource.events).map
            (emission (markers "" "/a/b").1 (markers "" "/a/b").2)) ++
        (if out.exit = Exit.ok then rootCloser "" else "")) ∧
    (∀ e ∈ matchEventsOf (fun s => containsChars "/a/b".data s.data) sampleSource.events,
      EventAt sampleSource.events 0 e ∧ containsChars "/a/b".data e.path.data = true) ∧
    (matchEventsOf (fun s => containsChars "/a/b".data s.data) sampleSource.events).Pairwise
      (fun a b => a.pos < b.pos)) :=
  ⟨by decide,
   emission_output compileLiteral { regexpath := some "/a/b" } sampleSource
      { expr := "/a/b", MatchString := fun s => containsChars "/a/b".data s.data }
      rfl rfl rfl (by decide) rfl rfl⟩

/-- C7: with rename empty, for every selector text `p` (the value of `*path`
when the markers are computed) the opener is `<` + lastElement(p) + `>` and
the closer is `</` + lastElement(p) + `>`, where lastElement(p) is what
follows the last `/` of `p`: it is `suf` when `p` is `pre` + `/` + `suf` and
`suf` has no `/`, the empty string when `p` ends with `/`, and all of `p`
when `p` has no `/`. -/
theorem default_markers (p : String) :
    markers "" p = ("<" ++ lastElement p ++ ">", "</" ++ lastElement p ++ ">") ∧
    (∀ pre suf : String, p = pre ++ "/" ++ suf → '/' ∉ suf.data → lastElement p = suf) ∧
    (∀ pre : String, p = pre ++ "/" → lastElement p = "") ∧
    ('/' ∉ p.data → lastElement p = p) := by
  refine ⟨by simp [markers], ?_, ?_, lastElement_no_slash p⟩
  · rintro pre suf rfl hsuf
    exact lastElement_after_last_slash pre suf hsuf
  · rintro pre rfl
    have h := lastElement_after_last_slash pre "" (by simp)
    simpa using h

/-- C7 (witness): the default markers for the selector text `/a/b` are `<b>`
and `</b>`, since `b` follows its last `/`. -/
theorem default_markers_witness :
    markers "" "/a/b" = ("<" ++ lastElement "/a/b" ++ ">", "</" ++ lastElement "/a/b" ++ ">") ∧
    lastElement "/a/b" = "b" ∧ lastElement "/a/" = "" ∧ lastElement "ab" = "ab" :=
  ⟨(default_markers "/a/b").1,
   (default_markers "/a/b").2.1 "/a" "b" (by decide) (by decide),
   (default_markers "/a/").2.2.1 "/a" (by decide),
   (default_markers "ab").2.2.2 (by decide)⟩

/-- C8: for every non-empty rename string `R` the markers are: newline and
empty when `R` is the two characters backslash-n; one space and one space
when `R` is a single space; `R` with every backslash-n replaced by a newline
character, and empty, when `R` begins with backslash-n; `<R>` and `</R>` for
every other `R`.  With rename a single space the run on
`<a><b>x</b><b>y</b></a>` with the pattern `/a/b` writes exactly ` x  y `. -/
theorem rename_markers (R p : String) (hR : R ≠ "") :
    (R = "\\n" → markers R p = ("\n", "")) ∧
    (R = " " → markers R p = (" ", " ")) ∧
    (stringsHasPrefix R "\\n" = true → markers R p = (stringsReplaceNewline R, "")) ∧
    (R ≠ " " → stringsHasPrefix R "\\n" = false →
      markers R p = ("<" ++ R ++ ">", "</" ++ R ++ ">")) ∧
    stringsReplaceNewline "\\nab\\nc" = "\nab\nc" ∧
    (∀ rest : String, Char.ofNat 92 ∉ rest.data →
      stringsReplaceNewline ("\\n" ++ rest) = "\n" ++ rest) ∧
    main compileLiteral { regexpath := some "/a/b", rename := some " " } sampleSource =
      some { stdout := " x  y ", exit := Exit.ok } := by
  refine ⟨?_, ?_, ?_, ?_, by decide, ?_, by decide⟩
  rotate_left 4
  · intro rest hrest
    have hdata : ("\\n" ++ rest).data = Char.ofNat 92 :: Char.ofNat 110 :: rest.data := by
      simp [String.data_append]
    have hrep : replaceEscapedNewline (Char.ofNat 92 :: Char.ofNat 110 :: rest.data) =
        Char.ofNat 10 :: rest.data := by
      simp [replaceEscapedNewline, replaceEscapedNewline_of_not_mem rest.data hrest]
    apply String.ext
    rw [stringsReplaceNewline, hdata, hrep]
    simp [String.data_append]
  · rintro rfl
    simp [markers]
  · rintro rfl
    simp [markers]
  · intro hpre
    by_cases h1 : R = "\\n"
    · subst h1
      have h3 : stringsReplaceNewline "\\n" = "\n" := by decide
      simp [markers, h3]
    · have h2 : R ≠ " " := by
        rintro rfl
        revert hpre
        decide
      simp [markers, hR, h1, h2, hpre]
  · intro h2 hpre
    have h1 : R ≠ "\\n" := by
      rintro rfl
      revert hpre
      decide
    simp [markers, hR, h1, h2, hpre]

/-- C8 (witness): the rename rules at the rename strings backslash-n,
single space, backslash-n followed by `ab`, and `rec`. -/
theorem rename_markers_witness :
    markers "\\n" "/a/b" = ("\n", "") ∧ markers " " "/a/b" = (" ", " ") ∧
    markers "\\nab" "/a/b" = ("\nab", "") ∧ markers "rec" "/a/b" = ("<rec>", "</rec>") :=
  ⟨(rename_markers "\\n" "/a/b" (by decide)).1 rfl,
   (rename_markers " " "/a/b" (by decide)).2.1 rfl,
   (rename_markers "\\nab" "/a/b" (by decide)).2.2.1 (by decide),
   (rename_markers "rec" "/a/b" (by decide)).2.2.2.1 (by decide) (by decide)⟩

/-- C9 (the claim as stated fails): with the selector `/` (regexpath `/`),
root `doc` and count off, on an input that holds a comment and no start
element at all, so that no start element matches, the output is not
`<doc>`, newline, `</doc>`, newline: the input is copied between the two
root lines. -/
theorem root_wrapper_selector_slash :
    startPaths StringStack.empty [Event.token Token.Other "<!--c-->"] = [] ∧
    main compileLiteral { regexpath := some "/", root := some "doc" }
        { bytes := "<!--c-->", events := [Event.token Token.Other "<!--c-->"] } =
      some { stdout := "<doc>\n<!--c--></doc>\n", exit := Exit.ok } := by
  decide

/-- C9 (amended): for every selector other than `/` and every token stream
(read to the end of the input) in which no start element matches the
selector, with root `R` non-empty and count off, the primary output is
exactly `<R>`, newline, `</R>`, newline. -/
theorem root_wrapper_no_match (compile : String → Option Regexp) (cl : CommandLine)
    (re : Regexp) (bytes : String) (toks : List (Token × String))
    (hre : compile (cl.regexpath.getD "") = some re) (hv : cl.v.getD false = false)
    (hsel : cl.regexpath.getD "" ≠ "/") (hroot : cl.root.getD "" ≠ "")
    (hcount : cl.count.getD false = false)
    (hnone : ∀ s ∈ startPaths StringStack.empty (tokenEvents toks), re.MatchString s = false) :
    main compile cl { bytes := bytes, events := tokenEvents toks } =
      some { stdout := "<" ++ cl.root.getD "" ++ ">" ++ "\n" ++ "</" ++ cl.root.getD "" ++ ">" ++ "\n",
             exit := Exit.ok } := by
  rw [main_scan compile cl _ re hre hv rfl hsel]
  obtain ⟨st1, hscan, hout, _⟩ := scanLoop_no_match (settingsOf re cl) toks
    ((tokenEvents toks).length + 1)
    { stack := StringStack.empty, counter := 0, stdout := rootOpener (cl.root.getD "") }
    (by simp [tokenEvents]) hnone
  simp only [hscan, hcount, Bool.false_eq_true, if_false]
  rw [hout]
  simp only [rootOpener, rootCloser, hroot, ne_eq, not_false_eq_true, if_true,
    String.append_assoc]

/-- C9 (witness): the amended claim at the input `<a><b>x</b><b>y</b></a>`
with the pattern `/a/c`, which matches none of its start elements, and root
`doc`. -/
theorem root_wrapper_no_match_witness :
    main compileLiteral { regexpath := some "/a/c", root := some "doc" }
        { bytes := "<a><b>x</b><b>y</b></a>",
          events := tokenEvents
            [(Token.StartElement "a", "<a>"), (Token.StartElement "b", "<b>"),
             (Token.Other, "x"), (Token.EndElement "b", "</b>"),
             (Token.StartElement "b", "<b>"), (Token.Other, "y"),
             (Token.EndElement "b", "</b>"), (Token.EndElement "a", "</a>")] } =
      some { stdout := "<" ++ "doc" ++ ">" ++ "\n" ++ "</" ++ "doc" ++ ">" ++ "\n",
             exit := Exit.ok } :=
  root_wrapper_no_match compileLiteral { regexpath := some "/a/c", root := some "doc" }
    { expr := "/a/c", MatchString := fun s => containsChars "/a/c".data s.data }
    "<a><b>x</b><b>y</b></a>" _ rfl rfl (by decide) (by decide) rfl (by decide)

/-- C10: on the stack modelled from the spec, `String()` of the empty stack
is exactly `/`; after the names `s1..sN` (N at least 1) were pushed in that
order onto the empty stack it is `/` + s1 + `/` + ... + `/` + sN, so that
`a`, `b`, `c` give `/a/b/c`; and after every sequence of pushes and pops it
begins with `/`. -/
theorem StringStack_rendering :
    StringStack.empty.String = "/" ∧
    (∀ (s : String) (ss : List String),
      (pushAll StringStack.empty (s :: ss)).String =
        concatAll ((s :: ss).map (fun x => "/" ++ x))) ∧
    (pushAll StringStack.empty ["a", "b", "c"]).String = "/a/b/c" ∧
    (∀ ops : List StackOp,
      stringsHasPrefix (applyOps StringStack.empty ops).String "/" = true) := by
  refine ⟨by decide, ?_, by decide, ?_⟩
  · intro s ss
    simp [StringStack.String, pushAll_array, StringStack.empty, stringsJoin_cons, concatAll,
      String.append_assoc]
  · intro ops
    simp [stringsHasPrefix, StringStack.String, String.data_append]

/-- C12: on the stack modelled from the spec, for every stack `q` and every
string `s`, `Push(s)` followed by `Pop()` returns `s` and leaves the stack as
`q` was, with the same rendering; and pushing `s1..sN` then popping `N`
times returns `sN..s1` and restores `q`.  The three rounds of
`TestStringFifo` are instances. -/
theorem push_pop_round_trip (q : StringStack) :
    (∀ s : String, (q.Push s).Pop = (s, q)) ∧
    (∀ s : String, (q.Push s).Pop.2.String = q.String) ∧
    (∀ ss : List String, popN ss.length (pushAll q ss) = (ss.reverse, q)) ∧
    (StringStack.empty.Push "Hello").Pop = ("Hello", StringStack.empty) ∧
    popN 3 (pushAll StringStack.empty ["Third", "Third", "Third"]) =
      (["Third", "Third", "Third"], StringStack.empty) := by
  refine ⟨Push_Pop q, ?_, popN_pushAll q, by decide, by decide⟩
  intro s
  rw [Push_Pop]

/-- C16: for every token stream in which a decode error follows the tokens
`toks`, be it at a token request of the loop or during the capture of a
matched subtree, the run ends by `log.Fatal` with that error, and its
primary output is exactly what the scan loop had written when it had
processed `toks`: whatever follows the error in the stream is not read, and
neither a root closer nor a count is written. -/
theorem decode_error_is_fatal (compile : String → Option Regexp) (cl : CommandLine)
    (re : Regexp) (bytes msg : String) (toks : List (Token × String)) (post : List Event)
    (hre : compile (cl.regexpath.getD "") = some re) (hv : cl.v.getD false = false)
    (hsel : cl.regexpath.getD "" ≠ "/") :
    ∃ st e,
      scanLoop (settingsOf re cl) (toks.length + 1) (tokenEvents toks)
          { stack := StringStack.empty, counter := 0,
            stdout := rootOpener (cl.root.getD "") } = some (st, e) ∧
      main compile cl
          { bytes := bytes, events := tokenEvents toks ++ Event.error msg :: post } =
        some { stdout := st.stdout, exit := Exit.fatal msg } := by
  have hlen : (tokenEvents toks).length = toks.length := by simp [tokenEvents]
  have hbound : toks.length <
      (tokenEvents toks ++ Event.error msg :: post).length + 1 := by
    simp only [List.length_append, hlen, List.length_cons]
    omega
  obtain ⟨st, e, h1, h2⟩ := scanLoop_error_after (settingsOf re cl) msg post
    ((tokenEvents toks ++ Event.error msg :: post).length + 1) toks
    { stack := StringStack.empty, counter := 0, stdout := rootOpener (cl.root.getD "") }
    hbound
  refine ⟨st, e, ?_, ?_⟩
  · rw [← h1]
    exact scanLoop_fuel (settingsOf re cl) _ _ _ _ (by omega) (by omega)
  · rw [main_scan compile cl _ re hre hv rfl hsel]
    simp only [h2]

/-- C16 (witness): on `<a><b>x</b>` followed by a decode error, with the
pattern `/a/b` and root `doc`, the run is fatal with the output `<doc>`,
newline, `<b>x</b>`: the emission of the first match stays and no root
closer is written. -/
theorem decode_error_is_fatal_witness :
    (∃ st e,
      scanLoop
          (settingsOf { expr := "/a/b", MatchString := fun s => containsChars "/a/b".data s.data }
            { regexpath := some "/a/b", root := some "doc" })
          (brokenTokens.length + 1) (tokenEvents brokenTokens)
          { stack := StringStack.empty, counter := 0, stdout := rootOpener "doc" } =
        some (st, e) ∧
      main compileLiteral { regexpath := some "/a/b", root := some "doc" }
          { bytes := "<a><b>x</b><",
            events := tokenEvents brokenTokens ++ Event.error "XML syntax error" :: [] } =
        some { stdout := st.stdout, exit := Exit.fatal "XML syntax error" }) ∧
    main compileLiteral { regexpath := some "/a/b", root := some "doc" }
        { bytes := "<a><b>x</b><",
          events := tokenEvents brokenTokens ++ Event.error "XML syntax error" :: [] } =
      some { stdout := "<doc>\n<b>x</b>", exit := Exit.fatal "XML syntax error" } :=
  ⟨decode_error_is_fatal compileLiteral { regexpath := some "/a/b", root := some "doc" }
      { expr := "/a/b", MatchString := fun s => containsChars "/a/b".data s.data }
      "<a><b>x</b><" "XML syntax error" brokenTokens [] rfl rfl (by decide),
   by decide⟩

/-- C15 (the claim as stated fails): with count on, the count is written
after the root closer.  On `<a><b>x</b><b>y</b></a>` with the pattern `/a/b`
and count on, the output with root `doc` is `<doc>`, newline, `</doc>`,
newline, `2`, whereas the output with root empty is `2`, so that the claim
would give `<doc>`, newline, `2`, `</doc>`, newline. -/
theorem root_wrapper_count_on :
    main compileLiteral { regexpath := some "/a/b", count := some true, root := some "doc" }
        sampleSource = some { stdout := "<doc>\n</doc>\n2", exit := Exit.ok } ∧
    main compileLiteral { regexpath := some "/a/b", count := some true } sampleSource =
      some { stdout := "2", exit := Exit.ok } ∧
    "<doc>\n</doc>\n2" ≠ "<doc>\n" ++ "2" ++ "</doc>\n" := by
  decide

/-- C15 (amended): for every input and every configuration whose run reads
the input (the selector compiles, the version flag is off, the input
opens), the run with root `R` non-empty ends as the run `B` with root empty
does, and: when the run ends normally on the copy-through path, or on the
tokenizing path with count off, its output is `<R>`, newline, the output of
`B`, `</R>`, newline; when it ends normally on the tokenizing path with
count on, the output of `B` is what the scan wrote (the report lines of the
match events when verbose is on, nothing otherwise) followed by the count
text for the number of match events, and the count text comes after the
root closer; when a decode error
ends it, its output is `<R>`, newline, the output of `B`, without closer. -/
theorem root_wraps_scan (compile : String → Option Regexp) (cl : CommandLine) (src : Source)
    (re : Regexp) (R : String) (hre : compile (cl.regexpath.getD "") = some re)
    (hv : cl.v.getD false = false) (hopen : src.openError = none) (hR : R ≠ "") :
    ∃ B W, main compile { cl with root := none } src = some B ∧
      main compile { cl with root := some R } src = some W ∧
      W.exit = B.exit ∧
      (B.exit = Exit.ok → (cl.regexpath.getD "" = "/" ∨ cl.count.getD false = false) →
        W.stdout = "<" ++ R ++ ">" ++ "\n" ++ B.stdout ++ "</" ++ R ++ ">" ++ "\n") ∧
      (B.exit = Exit.ok → cl.regexpath.getD "" ≠ "/" → cl.count.getD false = true →
        ∃ (S : String) (n : Nat),
          S = concatAll ((matchEventsOf re.MatchString src.events).map
            (fun e => if cl.verbose.getD false then
              "Matched " ++ e.path ++ " against regular expression " ++
                cl.regexpath.getD "" ++ "\n"
            else "")) ∧
          n = (matchEventsOf re.MatchString src.events).length ∧
          B.stdout = S ++ (if cl.verbose.getD false then "Count: " else "") ++ toString n ∧
          W.stdout = "<" ++ R ++ ">" ++ "\n" ++ S ++ "</" ++ R ++ ">" ++ "\n" ++
            (if cl.verbose.getD false then "Count: " else "") ++ toString n) ∧
      (∀ msg, B.exit = Exit.fatal msg → W.stdout = "<" ++ R ++ ">" ++ "\n" ++ B.stdout) := by
  have hro : rootOpener R = "<" ++ R ++ ">" ++ "\n" := by simp [rootOpener, hR]
  have hrc : rootCloser R = "</" ++ R ++ ">" ++ "\n" := by simp [rootCloser, hR]
  have hro0 : rootOpener ((none : Option String).getD "") = "" := by simp [rootOpener]
  have hrc0 : rootCloser ((none : Option String).getD "") = "" := by simp [rootCloser]
  by_cases hsel : cl.regexpath.getD "" = "/"
  · refine ⟨_, _, main_copy compile { cl with root := none } src re hre hv hopen hsel,
      main_copy compile { cl with root := some R } src re hre hv hopen hsel, rfl, ?_, ?_, ?_⟩
    · intro _ _
      simp only [hro0, hrc0, Option.getD_some, hro, hrc, String.append_assoc, String.append_empty,
        String.empty_append]
    · intro _ h
      exact absurd hsel h
    · intro msg h
      simp at h
  · rw [main_scan compile { cl with root := none } src re hre hv hopen hsel,
      main_scan compile { cl with root := some R } src re hre hv hopen hsel]
    have hset : settingsOf re { cl with root := some R } = settingsOf re { cl with root := none } :=
      rfl
    obtain ⟨r, hr⟩ := scanLoop_total (settingsOf re { cl with root := none })
      (src.events.length + 1) src.events
      { stack := StringStack.empty, counter := 0, stdout := "" } (Nat.lt_succ_self _)
    have hpre := scanLoop_stdout_prefix (settingsOf re { cl with root := none }) (rootOpener R)
      (src.events.length + 1) src.events
      { stack := StringStack.empty, counter := 0, stdout := "" }
    simp only [String.append_empty, hr, Option.map_some'] at hpre
    obtain ⟨st, e⟩ := r
    simp only [hset, hro0, hrc0, Option.getD_some, hr, hpre, String.append_empty]
    cases e with
    | some msg =>
      refine ⟨_, _, rfl, rfl, rfl, ?_, ?_, ?_⟩
      · intro h
        simp at h
      · intro h
        simp at h
      · intro msg1 _
        simp only [hro]
    | none =>
      refine ⟨_, _, rfl, rfl, rfl, ?_, ?_, ?_⟩
      · intro _ h
        rcases h with h | h
        · exact absurd h hsel
        · simp only [h, Bool.false_eq_true, if_false, hro, hrc, String.append_assoc]
      · intro _ _ h
        have hcount : countOn (settingsOf re { cl with root := none }) = true := by
          simp [countOn, settingsOf, derefBool, h]
        refine ⟨st.stdout, st.counter, ?_, ?_, ?_, ?_⟩
        · have hb := scanLoop_blocks _ _ _ _ 0 _ hr
          have hf : matchOutput (settingsOf re { cl with root := none }) =
              (fun e => if cl.verbose.getD false then
                "Matched " ++ e.path ++ " against regular expression " ++
                  cl.regexpath.getD "" ++ "\n"
              else "") := by
            funext e
            by_cases hvb : cl.verbose.getD false = true <;>
              simp [matchOutput, countOn, settingsOf, derefBool, h, hvb, verboseReport,
                derefString, String.append_assoc]
          rw [hb, hf]
          simp only [String.empty_append]
          rfl
        · have hn := scanLoop_counter _ _ _ _ 0 _ hr
          simp only [hcount, if_true, Nat.zero_add] at hn
          rw [hn]
          rfl
        · simp only [h, if_true]
          split <;> simp only [String.append_assoc, String.empty_append]
        · simp only [h, if_true, hro, hrc]
          split <;> simp only [String.append_assoc, String.empty_append]
      · intro msg h
        simp at h

/-- C15 (witness): from the output `<b>x</b><b>y</b>` of the run on
`<a><b>x</b><b>y</b></a>` with the pattern `/a/b` and root empty, the
amended claim gives the output of the run with root `doc`. -/
theorem root_wraps_scan_witness :
    main compileLiteral { regexpath := some "/a/b", root := some "doc" } sampleSource =
      some { stdout := "<doc>\n<b>x</b><b>y</b></doc>\n", exit := Exit.ok } := by
  obtain ⟨B, W, hB, hW, hexit, hwrap, _, _⟩ :=
    root_wraps_scan compileLiteral { regexpath := some "/a/b" } sampleSource
      { expr := "/a/b", MatchString := fun s => containsChars "/a/b".data s.data } "doc"
      rfl rfl rfl (by decide)
  have hB1 : main compileLiteral { regexpath := some "/a/b" } sampleSource =
      some { stdout := "<b>x</b><b>y</b>", exit := Exit.ok } := by decide
  have hB2 : B = { stdout := "<b>x</b><b>y</b>", exit := Exit.ok } :=
    Option.some.inj (hB.symm.trans hB1)
  subst hB2
  have hout := hwrap rfl (Or.inr rfl)
  rw [hW]
  cases W with
  | mk out ex =>
    simp only at hexit hout
    rw [hexit, hout]
    decide

/-- C14 (the claim as stated fails): with count off, the primary output of
the run on `<a><b>x</b><b>y</b></a>` with the pattern `/a/b` and verbose on
differs from that of the same run with verbose off: the reports of the two
matches are written to the primary output, each before its emission. -/
theorem verbose_changes_output :
    main compileLiteral { regexpath := some "/a/b", verbose := some false } sampleSource =
      some { stdout := "<b>x</b><b>y</b>", exit := Exit.ok } ∧
    main compileLiteral { regexpath := some "/a/b", verbose := some true } sampleSource =
      some { stdout := "Matched /a/b against regular expression /a/b\n<b>x</b>" ++
                "Matched /a/b against regular expression /a/b\n<b>y</b>",
             exit := Exit.ok } ∧
    main compileLiteral { regexpath := some "/a/b", verbose := some true } sampleSource ≠
      main compileLiteral { regexpath := some "/a/b", verbose := some false } sampleSource := by
  decide

/-- C14 (amended): for every input and every configuration with count off
whose run reads the input, the run with verbose on ends as the run with
verbose off does; on the copy-through path the two primary outputs are
equal; on the tokenizing path, when the scan reaches the end of the stream,
the output with verbose off is the emissions of the match events between the
root lines, and the output with verbose on has in addition, before each
emission, the line `Matched`, path, `against regular expression`, pattern:
the reports are written to the primary output. -/
theorem verbose_reports_on_stdout (compile : String → Option Regexp) (cl : CommandLine)
    (src : Source) (re : Regexp) (hre : compile (cl.regexpath.getD "") = some re)
    (hv : cl.v.getD false = false) (hopen : src.openError = none)
    (hcount : cl.count.getD false = false) :
    ∃ Q V, main compile { cl with verbose := some false } src = some Q ∧
      main compile { cl with verbose := some true } src = some V ∧
      V.exit = Q.exit ∧
      (cl.regexpath.getD "" = "/" → V.stdout = Q.stdout) ∧
      (cl.regexpath.getD "" ≠ "/" → Q.exit = Exit.ok →
        Q.stdout = rootOpener (cl.root.getD "") ++
          concatAll ((matchEventsOf re.MatchString src.events).map
            (emission (markers (cl.rename.getD "") (cl.regexpath.getD "")).1
              (markers (cl.rename.getD "") (cl.regexpath.getD "")).2)) ++
          rootCloser (cl.root.getD "") ∧
        V.stdout = rootOpener (cl.root.getD "") ++
          concatAll ((matchEventsOf re.MatchString src.events).map
            (fun e => "Matched " ++ e.path ++ " against regular expression " ++
              cl.regexpath.getD "" ++ "\n" ++
              emission (markers (cl.rename.getD "") (cl.regexpath.getD "")).1
                (markers (cl.rename.getD "") (cl.regexpath.getD "")).2 e)) ++
          rootCloser (cl.root.getD "")) := by
  by_cases hsel : cl.regexpath.getD "" = "/"
  · exact ⟨_, _, main_copy compile { cl with verbose := some false } src re hre hv hopen hsel,
      main_copy compile { cl with verbose := some true } src re hre hv hopen hsel, rfl,
      fun _ => rfl, fun h => absurd hsel h⟩
  · rw [main_scan compile { cl with verbose := some false } src re hre hv hopen hsel,
      main_scan compile { cl with verbose := some true } src re hre hv hopen hsel]
    obtain ⟨rq, hq⟩ := scanLoop_total (settingsOf re { cl with verbose := some false })
      (src.events.length + 1) src.events
      { stack := StringStack.empty, counter := 0, stdout := rootOpener (cl.root.getD "") }
      (Nat.lt_succ_self _)
    obtain ⟨rv, hrv⟩ := scanLoop_total (settingsOf re { cl with verbose := some true })
      (src.events.length + 1) src.events
      { stack := StringStack.empty, counter := 0, stdout := rootOpener (cl.root.getD "") }
      (Nat.lt_succ_self _)
    have hexit := scanLoop_exit (settingsOf re { cl with verbose := some false })
      (settingsOf re { cl with verbose := some true }) rfl rfl
      (src.events.length + 1) src.events
      { stack := StringStack.empty, counter := 0, stdout := rootOpener (cl.root.getD "") }
      { stack := StringStack.empty, counter := 0, stdout := rootOpener (cl.root.getD "") } rfl
    rw [hq, hrv] at hexit
    simp only [Option.map_some', Option.some.injEq] at hexit
    obtain ⟨stq, e1⟩ := rq
    obtain ⟨stv, e2⟩ := rv
    simp only at hexit
    rw [hexit] at hrv
    simp only [hq, hrv, hcount, Bool.false_eq_true, if_false]
    cases e1 with
    | some msg =>
      refine ⟨_, _, rfl, rfl, rfl, fun h => absurd h hsel, fun _ h => ?_⟩
      simp at h
    | none =>
      refine ⟨_, _, rfl, rfl, rfl, fun h => absurd h hsel, fun _ _ => ⟨?_, ?_⟩⟩
      · have hb := scanLoop_blocks _ _ _ _ 0 _ hq
        have hf : matchOutput (settingsOf re { cl with verbose := some false }) =
            emission (markers (cl.rename.getD "") (cl.regexpath.getD "")).1
              (markers (cl.rename.getD "") (cl.regexpath.getD "")).2 := by
          funext e
          simp [matchOutput, settingsOf, derefBool, countOn, hcount]
        show stq.stdout ++ rootCloser (cl.root.getD "") = _
        rw [hb, hf]
        rfl
      · have hb := scanLoop_blocks _ _ _ _ 0 _ hrv
        have hf : matchOutput (settingsOf re { cl with verbose := some true }) =
            (fun e => "Matched " ++ e.path ++ " against regular expression " ++
              cl.regexpath.getD "" ++ "\n" ++
              emission (markers (cl.rename.getD "") (cl.regexpath.getD "")).1
                (markers (cl.rename.getD "") (cl.regexpath.getD "")).2 e) := by
          funext e
          simp [matchOutput, settingsOf, derefBool, countOn, hcount, verboseReport,
            derefString, String.append_assoc]
        show stv.stdout ++ rootCloser (cl.root.getD "") = _
        rw [hb, hf]
        rfl

/-- C14 (witness): the amended claim on `<a><b>x</b><b>y</b></a>` with the
pattern `/a/b` gives the output of the run with verbose on, in which a
report line precedes each of the two emissions. -/
theorem verbose_reports_on_stdout_witness :
    ∃ V, main compileLiteral { regexpath := some "/a/b", verbose := some true } sampleSource =
        some V ∧
      V.stdout = "Matched /a/b against regular expression /a/b\n<b>x</b>" ++
        "Matched /a/b against regular expression /a/b\n<b>y</b>" := by
  obtain ⟨Q, V, hQ, hV, hexit, _, hout⟩ :=
    verbose_reports_on_stdout compileLiteral { regexpath := some "/a/b" } sampleSource
      { expr := "/a/b", MatchString := fun s => containsChars "/a/b".data s.data }
      rfl rfl rfl rfl
  have hQ1 : main compileLiteral { regexpath := some "/a/b", verbose := some false }
      sampleSource = some { stdout := "<b>x</b><b>y</b>", exit := Exit.ok } := by decide
  have hQ2 : Q = { stdout := "<b>x</b><b>y</b>", exit := Exit.ok } :=
    Option.some.inj (hQ.symm.trans hQ1)
  subst hQ2
  refine ⟨V, hV, ?_⟩
  rw [(hout (by decide) rfl).2]
  decide

/-- C13: for every token stream and every selector, each match event of the
scan is one of the matcher calls and captures an element of the stream, from
its start element to the end element that closes it; no matcher call lies
inside that element, so that no token inside it is examined by the matcher,
and no other match event starts inside it: the captured subtrees are
pairwise disjoint.  The scan indeed depends on the selector only through its
answers at the matcher calls.  In `<a><a>x</a></a>` with the pattern `/a`,
which is also found in the path `/a/a` of the inner element, there is one
match event, for the outer element. -/
theorem matches_never_nest (re : Regexp) (evs : List Event) :
    (∀ e ∈ matchEventsOf re.MatchString evs,
      (e.pos, e.path) ∈ matcherCallsOf re.MatchString evs ∧
      ∃ last, Captures evs 0 e last ∧
        (∀ c ∈ matcherCallsOf re.MatchString evs, c.1 ≤ e.pos ∨ last < c.1) ∧
        (∀ e1 ∈ matchEventsOf re.MatchString evs, e1.pos ≤ e.pos ∨ last < e1.pos)) ∧
    (∀ (c : Settings) (re1 : Regexp) (st : LoopState), c.repath = some re →
      st.stack = StringStack.empty →
      (∀ call ∈ matcherCallsOf re.MatchString evs,
        re1.MatchString call.2 = re.MatchString call.2) →
      scanLoop { c with repath := some re1 } (evs.length + 1) evs st =
        scanLoop c (evs.length + 1) evs st) ∧
    matchEventsOf (fun s => containsChars "/a".data s.data)
        [Event.token (Token.StartElement "a") "<a>", Event.token (Token.StartElement "a") "<a>",
         Event.token Token.Other "x", Event.token (Token.EndElement "a") "</a>",
         Event.token (Token.EndElement "a") "</a>"] =
      [{ pos := 0, path := "/a", content := "<a>x</a>" }] := by
  refine ⟨?_, ?_, by decide⟩
  · intro e he
    have hspans := matchEvents_spans re.MatchString (evs.length + 1) evs 0 StringStack.empty
    obtain ⟨hmem, last, hcap, hcalls⟩ := hspans.2 e he
    refine ⟨hmem, last, hcap, hcalls, ?_⟩
    intro e1 he1
    exact hcalls _ (hspans.2 e1 he1).1
  · intro c re1 st hc hst hcalls
    refine scanLoop_matcher_calls c re re1 hc (evs.length + 1) evs st 0 ?_
    rw [hst]
    exact hcalls

/-- C13 (witness): in `<a><b>x</b><b>y</b></a>` with the pattern `/a` the
only matcher call is the one at the start element `a`; the match event for
`a` captures an element that no matcher call lies in, so the two elements
`b` are not examined. -/
theorem matches_never_nest_witness :
    matcherCallsOf (fun s => containsChars "/a".data s.data) sampleEvents = [(0, "/a")] ∧
    ∃ last,
      Captures sampleEvents 0 { pos := 0, path := "/a", content := "<b>x</b><b>y</b>" } last ∧
      ∀ c ∈ matcherCallsOf (fun s => containsChars "/a".data s.data) sampleEvents,
        c.1 ≤ 0 ∨ last < c.1 := by
  refine ⟨by decide, ?_⟩
  obtain ⟨_, last, hcap, hcalls, _⟩ :=
    (matches_never_nest { expr := "/a", MatchString := fun s => containsChars "/a".data s.data }
      sampleEvents).1 { pos := 0, path := "/a", content := "<b>x</b><b>y</b>" } (by decide)
  exact ⟨last, hcap, hcalls⟩

/-- C17: the scan loop is the repetition of `loopStep`, and for every token
stream, after each iteration of the loop the stack holds exactly the names
of the elements that are open after the tokens consumed so far, outermost
first, so that its depth is the nesting depth there; an iteration that
matches a start element and captures its subtree leaves the stack as it was
before that start element was pushed; and on a well-formed (balanced) stream
the scan reaches the end of the stream with an empty stack. -/
theorem depth_invariant (c : Settings) (evs : List Event) (out : String) :
    (∀ (n : Nat) (rest : List Event) (st : LoopState),
      iterations c n evs { stack := StringStack.empty, counter := 0, stdout := out } =
        some (rest, st) →
      ∃ consumed, evs = consumed ++ rest ∧ st.stack.array = openAfter [] consumed ∧
        st.stack.array.length = nestingDepth 0 consumed) ∧
    (∀ (name raw text : String) (rest rest1 : List Event) (st : LoopState),
      matched c.repath c.path (st.stack.Push name).String = true →
      DecodeElement rest 0 "" = .ok (text, rest1) →
      ∃ st1, loopStep c (Event.token (Token.StartElement name) raw :: rest) st =
          Step.next rest1 st1 ∧ st1.stack = st.stack) ∧
    (balanced 0 evs = true →
      ∃ st, scanLoop c (evs.length + 1) evs
          { stack := StringStack.empty, counter := 0, stdout := out } = some (st, none) ∧
        st.stack = StringStack.empty) := by
  refine ⟨?_, ?_, ?_⟩
  · intro n rest st h
    obtain ⟨consumed, hevs, hopen⟩ := iterations_openAfter c n evs rest _ st h
    refine ⟨consumed, hevs, hopen, ?_⟩
    rw [hopen]
    exact openAfter_length consumed []
  · intro name raw text rest rest1 st hm hd
    simp only [loopStep, hm, if_true, hd, Push_Pop]
    split <;> exact ⟨_, rfl, rfl⟩
  · intro hb
    obtain ⟨st, hscan, hstack⟩ := scanLoop_balanced c (evs.length + 1) evs
      { stack := StringStack.empty, counter := 0, stdout := out } (Nat.lt_succ_self _) hb
    refine ⟨st, hscan, ?_⟩
    cases hst : st.stack with
    | mk array =>
      rw [hst] at hstack
      simp only at hstack
      rw [hstack]
      rfl

/-- C17 (witness): in the scan of `<a><b>x</b><b>y</b></a>` with the
pattern `/a/b`, after two iterations (the start element `a`, then the match
of the first `b`) the stack holds `a`, the one open element, and the
balanced stream ends with an empty stack. -/
theorem depth_invariant_witness :
    (∃ consumed, sampleEvents = consumed ++ sampleEvents.drop 4 ∧
      ["a"] = openAfter [] consumed ∧ ["a"].length = nestingDepth 0 consumed) ∧
    (∃ st, scanLoop
        (settingsOf { expr := "/a/b", MatchString := fun s => containsChars "/a/b".data s.data }
          { regexpath := some "/a/b" })
        (sampleEvents.length + 1) sampleEvents
        { stack := StringStack.empty, counter := 0, stdout := "" } = some (st, none) ∧
      st.stack = StringStack.empty) :=
  ⟨(depth_invariant
      (settingsOf { expr := "/a/b", MatchString := fun s => containsChars "/a/b".data s.data }
        { regexpath := some "/a/b" }) sampleEvents "").1 2 (sampleEvents.drop 4)
      { stack := { array := ["a"] }, counter := 0, stdout := "<b>x</b>" } (by decide),
   (depth_invariant
      (settingsOf { expr := "/a/b", MatchString := fun s => containsChars "/a/b".data s.data }
        { regexpath := some "/a/b" }) sampleEvents "").2.2 (by decide)⟩

/-- C18 (as the code behaves): with the selector `a/b`, which does not begin
with `/`, given through the path flag, the run on `<a><b>x</b><b>y</b></a>`
is not without match: the path flag is overwritten by the empty regexpath,
the empty pattern matches the start element `a`, so there is one match
event, the output is `<><b>x</b><b>y</b></>`, and with count on it is `1`. -/
theorem path_without_slash_run_on_sample :
    main compileLiteral { path := some "a/b" } sampleSource =
      some { stdout := "<><b>x</b><b>y</b></>", exit := Exit.ok } ∧
    main compileLiteral { path := some "a/b", count := some true } sampleSource =
      some { stdout := "1", exit := Exit.ok } ∧
    matchEventsOf (fun s => containsChars "".data s.data) sampleSource.events =
      [{ pos := 0, path := "/a", content := "<b>x</b><b>y</b>" }] := by
  decide

/-- C11 (the claim as stated fails): on the input
`</z></z><a><b>x</b><b>y</b></a>`, which has more end tags than start tags,
the first call of `decoder.Token()` returns the error `unexpected end
element`, and the run with the pattern `/a/b` is fatal with an empty output;
on the input without the two surplus end tags the output is
`<b>x</b><b>y</b>`.  The scan fails, and the later elements are not rendered
as if the surplus end tags were absent. -/
theorem surplus_end_tag_fails_on_sample :
    tokenResults [] ((Token.EndElement "z", "</z>") :: (Token.EndElement "z", "</z>") ::
        sampleTokens) = [Event.error (unexpectedEnd "z")] ∧
    main compileLiteral { regexpath := some "/a/b" }
        { bytes := "</z></z><a><b>x</b><b>y</b></a>",
          events := tokenResults [] ((Token.EndElement "z", "</z>") ::
            (Token.EndElement "z", "</z>") :: sampleTokens) } =
      some { stdout := "", exit := Exit.fatal (unexpectedEnd "z") } ∧
    tokenResults [] sampleTokens = sampleEvents ∧
    main compileLiteral { regexpath := some "/a/b" }
        { bytes := "<a><b>x</b><b>y</b></a>", events := tokenResults [] sampleTokens } =
      some { stdout := "<b>x</b><b>y</b>", exit := Exit.ok } := by
  decide

/-- C11 (amended): on the stack modelled from the spec, `Pop` on the empty
stack raises no error and leaves the stack empty, so that `String()` is still
`/`.  The decoder, however, delivers no end element that closes nothing: for
every input made of a well-formed run of tags `pre` followed by an end tag,
`decoder.Token()` returns the tokens of `pre` and then the error `unexpected
end element`, and the run is fatal with that error at that tag; its output
is what the scan of `pre`, which reaches the end of `pre`, had written, and
nothing that follows the tag is processed. -/
theorem surplus_end_tag_is_fatal (compile : String → Option Regexp) (cl : CommandLine)
    (re : Regexp) (bytes name raw : String) (pre post : List (Token × String))
    (hre : compile (cl.regexpath.getD "") = some re) (hv : cl.v.getD false = false)
    (hsel : cl.regexpath.getD "" ≠ "/") (hwf : wellFormed [] pre = true) :
    StringStack.empty.Pop = ("", StringStack.empty) ∧
    StringStack.empty.Pop.2.String = "/" ∧
    tokenResults [] (pre ++ (Token.EndElement name, raw) :: post) =
      tokenEvents pre ++ [Event.error (unexpectedEnd name)] ∧
    ∃ st,
      scanLoop (settingsOf re cl) (pre.length + 1) (tokenEvents pre)
          { stack := StringStack.empty, counter := 0,
            stdout := rootOpener (cl.root.getD "") } = some (st, none) ∧
      main compile cl
          { bytes := bytes,
            events := tokenResults [] (pre ++ (Token.EndElement name, raw) :: post) } =
        some { stdout := st.stdout, exit := Exit.fatal (unexpectedEnd name) } := by
  have hres : tokenResults [] (pre ++ (Token.EndElement name, raw) :: post) =
      tokenEvents pre ++ [Event.error (unexpectedEnd name)] := by
    have h := tokenResults_wellFormed pre [] [] ((Token.EndElement name, raw) :: post) hwf
    simp only [List.nil_append] at h
    rw [h]
    simp [tokenResults, closeTo]
  refine ⟨by decide, by decide, hres, ?_⟩
  have hlen : (tokenEvents pre).length = pre.length := by simp [tokenEvents]
  obtain ⟨st1, hscan, _⟩ := scanLoop_balanced (settingsOf re cl) (pre.length + 1)
    (tokenEvents pre)
    { stack := StringStack.empty, counter := 0, stdout := rootOpener (cl.root.getD "") }
    (by omega) (wellFormed_balanced pre [] hwf)
  obtain ⟨st, e, h1, h2⟩ := main_tokens_then_error compile cl re bytes (unexpectedEnd name)
    pre [] hre hv hsel
  rw [hscan] at h1
  simp only [Option.some.injEq, Prod.mk.injEq] at h1
  refine ⟨st1, hscan, ?_⟩
  rw [hres, h2, h1.1]

/-- C11 (witness): on `<a><b>x</b><b>y</b></a></z>` with the pattern `/a/b`
the two matches are written, then the end tag `</z>`, which closes nothing,
makes the run fatal. -/
theorem surplus_end_tag_is_fatal_witness :
    (StringStack.empty.Pop = ("", StringStack.empty) ∧
      StringStack.empty.Pop.2.String = "/" ∧
      tokenResults [] (sampleTokens ++ (Token.EndElement "z", "</z>") :: []) =
        tokenEvents sampleTokens ++ [Event.error (unexpectedEnd "z")] ∧
      ∃ st,
        scanLoop
            (settingsOf
              { expr := "/a/b", MatchString := fun s => containsChars "/a/b".data s.data }
              { regexpath := some "/a/b" })
            (sampleTokens.length + 1) (tokenEvents sampleTokens)
            { stack := StringStack.empty, counter := 0, stdout := rootOpener "" } =
          some (st, none) ∧
        main compileLiteral { regexpath := some "/a/b" }
            { bytes := "<a><b>x</b><b>y</b></a></z>",
              events := tokenResults [] (sampleTokens ++ (Token.EndElement "z", "</z>") :: []) } =
          some { stdout := st.stdout, exit := Exit.fatal (unexpectedEnd "z") }) ∧
    main compileLiteral { regexpath := some "/a/b" }
        { bytes := "<a><b>x</b><b>y</b></a></z>",
          events := tokenResults [] (sampleTokens ++ (Token.EndElement "z", "</z>") :: []) } =
      some { stdout := "<b>x</b><b>y</b>", exit := Exit.fatal (unexpectedEnd "z") } :=
  ⟨surplus_end_tag_is_fatal compileLiteral { regexpath := some "/a/b" }
      { expr := "/a/b", MatchString := fun s => containsChars "/a/b".data s.data }
      "<a><b>x</b><b>y</b></a></z>" "z" "</z>" sampleTokens [] rfl rfl (by decide) (by decide),
   by decide⟩

end Xmlcutty
